import Mathlib

/-!
Verification of the record-normalization and aggregation engine of the
activityStatistics repository.

JavaScript strings are modelled as `List Char`; JS `Date` values are modelled
as proleptic-Gregorian calendar dates at day resolution (the app only ever
compares year/month/day and midnight-to-midnight differences, and the target
locale has no daylight-saving shifts).  JS objects used as string-keyed maps
are modelled as association lists in insertion order, matching the JS
iteration order for string keys.
-/

namespace ActivityStats

/-- JS string model: a list of unicode characters. -/
abbrev JStr := List Char

/-- Build a `JStr` from a Lean string literal. -/
def jstr (s : String) : JStr := s.data

/-- Whitespace characters recognised by JS `trim` / `\s` (the common set). -/
def jsIsWhitespace (c : Char) : Bool :=
  c = ' ' || c = '\t' || c = '\n' || c = '\r' ||
  c = Char.ofNat 0x0b || c = Char.ofNat 0x0c ||
  c = Char.ofNat 0xa0 || c = Char.ofNat 0x3000 || c = Char.ofNat 0xfeff

/-- JS `String.prototype.trim`. -/
def jsTrim (s : JStr) : JStr :=
  ((s.dropWhile jsIsWhitespace).reverse.dropWhile jsIsWhitespace).reverse

/-- JS `String.prototype.split` with a single-character separator.
`"a-b".split("-") = ["a","b"]`, `"-".split("-") = ["",""]`, `"".split("-") = [""]`. -/
def splitOnChar (c : Char) : JStr → List JStr
  | [] => [[]]
  | x :: xs =>
    if x = c then [] :: splitOnChar c xs
    else
      match splitOnChar c xs with
      | h :: t => (x :: h) :: t
      | [] => [[x]]

/-- ASCII decimal digit test (`\d`). -/
def isDigitChar (c : Char) : Bool := '0' ≤ c && c ≤ '9'

/-- Numeric value of a pure digit string (used for regex capture groups,
where `parseInt` receives a pure decimal digit string). -/
def digitsToNat (s : JStr) : Nat :=
  s.foldl (fun acc c => acc * 10 + (c.toNat - 48)) 0

/-- JS `parseInt(s, 10)` on an arbitrary string: skip leading whitespace, an
optional sign, then read leading decimal digits; `none` models `NaN`. -/
def jsParseInt (s : JStr) : Option Int :=
  let t := s.dropWhile jsIsWhitespace
  match t with
  | '+' :: r =>
    let ds := r.takeWhile isDigitChar
    if ds = [] then none else some (digitsToNat ds)
  | '-' :: r =>
    let ds := r.takeWhile isDigitChar
    if ds = [] then none else some (-(digitsToNat ds : Int))
  | r =>
    let ds := r.takeWhile isDigitChar
    if ds = [] then none else some (digitsToNat ds)

/-- One-pass scanner for `stripDelim`; `buf` holds (reversed) the characters
read since the most recent still-open opening delimiter, `none` when no group
is open.  A group that closes is dropped; a group still open at the end of
input was never a regex match, so its characters are kept verbatim. -/
def stripDelimAux (o c : Char) : JStr → Option JStr → JStr
  | [], none => []
  | [], some buf => buf.reverse
  | x :: xs, none =>
    if x = o then stripDelimAux o c xs (some [x])
    else x :: stripDelimAux o c xs none
  | x :: xs, some buf =>
    if x = c then stripDelimAux o c xs none
    else stripDelimAux o c xs (some (x :: buf))

/-- Global regex replace of a delimited group, e.g. `/\([^)]*\)/g` with
opening `o` and closing `c`: scanning left to right, an opening delimiter
followed (eventually) by a closing one is removed together with the
characters between them; an unmatched opening delimiter is kept. -/
def stripDelim (o c : Char) (s : JStr) : JStr := stripDelimAux o c s none

/-- JS `String.prototype.includes` for a single character. -/
def jsIncludesChar (s : JStr) (c : Char) : Bool := s.contains c

/-! ## Calendar model (proleptic Gregorian, as used by JS `Date`) -/

/-- A calendar date; `month` is 1-based (JS `getMonth() + 1`). -/
@[ext]
structure SimpleDate where
  year : Int
  month : Int
  day : Int
deriving DecidableEq, Repr

/-- Days since 1970-01-01 of a civil date (Hinnant's `days_from_civil`);
`m` is 1-based and must be in 1..12, `d` unrestricted (day overflow is
handled by `civilFromDays` round-tripping). -/
def daysFromCivil (y m d : Int) : Int :=
  let y' := y - (if m ≤ 2 then 1 else 0)
  let era := y'.fdiv 400
  let yoe := y' - era * 400
  let mp := m + (if m > 2 then -3 else 9)
  let doy := (153 * mp + 2).fdiv 5 + d - 1
  let doe := yoe * 365 + yoe.fdiv 4 - yoe.fdiv 100 + doy
  era * 146097 + doe - 719468

/-- Civil date from days since 1970-01-01 (Hinnant's `civil_from_days`). -/
def civilFromDays (z : Int) : SimpleDate :=
  let z' := z + 719468
  let era := z'.fdiv 146097
  let doe := z' - era * 146097
  let yoe := (doe - doe.fdiv 1460 + doe.fdiv 36524 - doe.fdiv 146096).fdiv 365
  let y := yoe + era * 400
  let doy := doe - (365 * yoe + yoe.fdiv 4 - yoe.fdiv 100)
  let mp := (5 * doy + 2).fdiv 153
  let d := doy - (153 * mp + 2).fdiv 5 + 1
  let m := mp + (if mp < 10 then 3 else -9)
  ⟨y + (if m ≤ 2 then 1 else 0), m, d⟩

/-- JS `new Date(y, m, d)` field normalization (month `m` is 0-based and may
be out of range; day `d` may be out of range and rolls over). -/
def jsMakeDate (y m d : Int) : SimpleDate :=
  let y' := y + m.fdiv 12
  let m' := m.emod 12
  civilFromDays (daysFromCivil y' (m' + 1) 1 + (d - 1))

/-- Days since 1970-01-01 of a date (JS `getTime() / 86400000` at local
midnight). -/
def epochDay (dt : SimpleDate) : Int := daysFromCivil dt.year dt.month dt.day

/-- JS `getTime()` of a date at local midnight, in milliseconds. -/
def getTimeMs (dt : SimpleDate) : Int := epochDay dt * 86400000

/-- Number of days of month `m` of year `y` in the Gregorian calendar. -/
def daysInMonth (y m : Int) : Int :=
  if m = 2 then
    (if y.emod 4 = 0 && (y.emod 100 ≠ 0 || y.emod 400 = 0) then 29 else 28)
  else if m = 4 || m = 6 || m = 9 || m = 11 then 30
  else 31

/-! ## `parseDate` (src/src/utils/dateParser.js), text branch

The claims only exercise text inputs, so the `Date`-instance and
numeric-serial branches of `parseDate` are not embedded.  The final
`new Date(dateStr)` fallback delegates to the host engine's locale parser and
is kept as an explicit parameter `fb`. -/

/-- Regex `^(\d{1,2})\/(\d{1,2})$` (full match, two capture groups via
`parseInt`). -/
def matchMD (s : JStr) : Option (Int × Int) :=
  match splitOnChar '/' s with
  | [a, b] =>
    if a ≠ [] && a.length ≤ 2 && a.all isDigitChar &&
       (b ≠ [] && b.length ≤ 2 && b.all isDigitChar) then
      some ((digitsToNat a : Int), (digitsToNat b : Int))
    else none
  | _ => none

/-- Regex `^(\d{4})sep(\d{1,2})sep(\d{1,2})$` for a non-digit separator. -/
def matchY4Sep (sep : Char) (s : JStr) : Option (Int × Int × Int) :=
  match splitOnChar sep s with
  | [a, b, c] =>
    if a.length = 4 && a.all isDigitChar &&
       (b ≠ [] && b.length ≤ 2 && b.all isDigitChar) &&
       (c ≠ [] && c.length ≤ 2 && c.all isDigitChar) then
      some ((digitsToNat a : Int), (digitsToNat b : Int), (digitsToNat c : Int))
    else none
  | _ => none

/-- Regex `^(\d{1,2})\/(\d{1,2})\/(\d{4})$` returning (year, month, day). -/
def matchMDY (s : JStr) : Option (Int × Int × Int) :=
  match splitOnChar '/' s with
  | [a, b, c] =>
    if (a ≠ [] && a.length ≤ 2 && a.all isDigitChar) &&
       (b ≠ [] && b.length ≤ 2 && b.all isDigitChar) &&
       c.length = 4 && c.all isDigitChar then
      some ((digitsToNat c : Int), (digitsToNat a : Int), (digitsToNat b : Int))
    else none
  | _ => none

/-- Regex `^(\d{4})年(\d{1,2})月(\d{1,2})日$`. -/
def matchCJKDate (s : JStr) : Option (Int × Int × Int) :=
  let ys := s.takeWhile isDigitChar
  match s.dropWhile isDigitChar with
  | y :: r2 =>
    if y = '年' then
      let ms := r2.takeWhile isDigitChar
      match r2.dropWhile isDigitChar with
      | mo :: r4 =>
        if mo = '月' then
          let ds := r4.takeWhile isDigitChar
          let r5 := r4.dropWhile isDigitChar
          if r5 = ['日'] && ys.length = 4 && ms ≠ [] && ms.length ≤ 2 &&
             ds ≠ [] && ds.length ≤ 2 then
            some ((digitsToNat ys : Int), (digitsToNat ms : Int), (digitsToNat ds : Int))
          else none
        else none
      | [] => none
    else none
  | [] => none

/-- The fixed default year constant of `dateParser.js`. -/
def defaultYear : Int := 2025

/-- Range branch of `parseDate`: on `start-end`, parse the start as `M/D`
against the default year, validating via `Date` round-trip; returns the
start date on success, otherwise falls through. -/
def tryRangeStart (s : JStr) : Option SimpleDate :=
  match splitOnChar '-' s with
  | [a, b] =>
    let sp := jsTrim a
    let _ep := jsTrim b
    match matchMD sp with
    | some (m, d) =>
      if 1 ≤ m && m ≤ 12 && 1 ≤ d && d ≤ 31 then
        let dt := jsMakeDate defaultYear (m - 1) d
        if dt.year = defaultYear && dt.month = m && dt.day = d then some dt
        else none
      else none
    | none => none
  | _ => none

/-- Single-date branch of `parseDate`: `M/D` against the default year. -/
def trySingleMD (s : JStr) : Option SimpleDate :=
  match matchMD s with
  | some (m, d) =>
    if 1 ≤ m && m ≤ 12 && 1 ≤ d && d ≤ 31 then
      let dt := jsMakeDate defaultYear (m - 1) d
      if dt.year = defaultYear && dt.month = m && dt.day = d then some dt
      else none
    else none
  | none => none

/-- Year-bounds and round-trip validation shared by the explicit absolute
formats of `parseDate`. -/
def validateYMD (y m d : Int) : Option SimpleDate :=
  if 1900 ≤ y && y ≤ 2100 && 1 ≤ m && m ≤ 12 && 1 ≤ d && d ≤ 31 then
    let dt := jsMakeDate y (m - 1) d
    if dt.year = y && dt.month = m && dt.day = d then some dt else none
  else none

/-- The ordered explicit-format fallback patterns of `parseDate`. -/
def tryPatterns (s : JStr) : Option SimpleDate :=
  match matchY4Sep '/' s with
  | some (y, m, d) => validateYMD y m d
  | none =>
  match matchY4Sep '-' s with
  | some (y, m, d) => validateYMD y m d
  | none =>
  match matchCJKDate s with
  | some (y, m, d) => validateYMD y m d
  | none =>
  match matchMDY s with
  | some (y, m, d) => validateYMD y m d
  | none =>
  match matchY4Sep '.' s with
  | some (y, m, d) => validateYMD y m d
  | none => none

/-- Result of the repository-owned part of `parseDate` on a text input:
either an explicit return, or a fall-through to the host `new Date(dateStr)`
parse applied to the processed string. -/
inductive ParseDateCore where
  | ret (d : Option SimpleDate)
  | fallthrough (s : JStr)
deriving DecidableEq

/-- Text branch of `parseDate` up to (not including) the host-engine
fallback: trim, strip parenthetical annotations, try range start, single
`M/D`, then the explicit absolute formats. -/
def parseDateCore (s : JStr) : ParseDateCore :=
  if s = [] then .ret none
  else
    let s1 := jsTrim s
    if s1 = [] then .ret none
    else
      let s2 := jsTrim (stripDelim '（' '）' (stripDelim '(' ')' s1))
      match (if jsIncludesChar s2 '-' then tryRangeStart s2 else none) with
      | some dt => .ret (some dt)
      | none =>
        match trySingleMD s2 with
        | some dt => .ret (some dt)
        | none =>
          match tryPatterns s2 with
          | some dt => .ret (some dt)
          | none => .fallthrough s2

/-- `parseDate` on a text input, parameterized by the host engine's generic
date-text parse `fb` (the final `new Date(dateStr)` fallback). -/
def parseDateText (fb : JStr → Option SimpleDate) (s : JStr) : Option SimpleDate :=
  match parseDateCore s with
  | .ret r => r
  | .fallthrough t => fb t

/-- The decimal text of `n < 100` (one or two digits), the `M` and `D`
segments of an `M/D` input. -/
def natToChars2 (n : Nat) : JStr :=
  if n < 10 then [Char.ofNat (48 + n)]
  else [Char.ofNat (48 + n / 10), Char.ofNat (48 + n % 10)]

/-- The text `M/D`. -/
def mdChars (m d : Nat) : JStr := natToChars2 m ++ '/' :: natToChars2 d

/-- `M/D` is a valid calendar date of the default year. -/
def validMD (m d : Nat) : Prop :=
  1 ≤ m ∧ m ≤ 12 ∧ 1 ≤ d ∧ (d : Int) ≤ daysInMonth defaultYear m

instance (m d : Nat) : Decidable (validMD m d) := by
  unfold validMD; infer_instance

/-- A capture of `\d{1,2}`: a nonempty digit string of at most two digits. -/
def goodSeg (s : JStr) : Prop := s ≠ [] ∧ s.length ≤ 2 ∧ s.all isDigitChar = true

instance (s : JStr) : Decidable (goodSeg s) := by
  unfold goodSeg; infer_instance

/-! ## `parseDateRange` and `parseParticipants`
(src/src/utils/excelParser.js) -/

/-- `parseDateRange(dateStr, activityDate)`: inclusive day count of a date
or date range against the default year.  The result is `Option Int`: `some n`
is a returned number, `none` models the implicit `undefined` return when a
string containing `-` does not split into exactly two parts. -/
def parseDateRange (dateStr : JStr) (activityDate : Option SimpleDate) :
    Option Int :=
  if dateStr = [] then some 0
  else
    let trimmed := jsTrim dateStr
    let defaultMonth : Option Int := activityDate.map (·.month)
    if jsIncludesChar trimmed '-' then
      match splitOnChar '-' trimmed with
      | [p1, p2] =>
        let startPart := jsTrim p1
        let endPart := jsTrim p2
        let startMD : Option (Int × Int) :=
          if jsIncludesChar startPart '/' then
            matchMD startPart
          else
            match defaultMonth with
            | none => none
            | some dm =>
              match jsParseInt startPart with
              | none => none
              | some day => some (dm, day)
        match startMD with
        | none => some 0
        | some (startMonth, startDay) =>
          let endMD : Option (Int × Int) :=
            if jsIncludesChar endPart '/' then
              matchMD endPart
            else
              let endMonth :=
                if jsIncludesChar startPart '/' then startMonth
                else
                  -- `defaultMonth || startMonth` (JS truthiness)
                  match defaultMonth with
                  | some dm => if dm = 0 then startMonth else dm
                  | none => startMonth
              match jsParseInt endPart with
              | none => none
              | some day => some (endMonth, day)
          match endMD with
          | none => some 0
          | some (endMonth, endDay) =>
            let startDate := jsMakeDate defaultYear (startMonth - 1) startDay
            let endDate := jsMakeDate defaultYear (endMonth - 1) endDay
            if startDate.month ≠ startMonth || startDate.day ≠ startDay ||
               endDate.month ≠ endMonth || endDate.day ≠ endDay then some 0
            else
              let diffTime := getTimeMs endDate - getTimeMs startDate
              let diffDays := diffTime.fdiv 86400000
              some (diffDays + 1)
      | _ => none
    else
      match matchMD trimmed with
      | none => some 0
      | some (m, d) =>
        if m < 1 || 12 < m || d < 1 || 31 < d then some 0
        else
          let date := jsMakeDate defaultYear (m - 1) d
          if date.month ≠ m || date.day ≠ d then some 0
          else some 1

/-- `[：:]\s*(.+)$` tail of the date-prefix regex: a full- or half-width
colon, then the (nonempty) remainder after greedy `\s*`; when the remainder
is all whitespace, `\s*` backtracks so the capture is the final whitespace
character (lines contain no newline at this point). -/
def colonRest (r : JStr) : Option JStr :=
  match r with
  | c :: rest =>
    if c = '：' || c = ':' then
      let names := rest.dropWhile jsIsWhitespace
      if names ≠ [] then some names
      else
        match rest.getLast? with
        | some w => some [w]
        | none => none
    else none
  | [] => none

/-- Regex `^(\d{1,2}\/\d{1,2}(?:-\d{1,2}(?:\/\d{1,2})?)?)[：:]\s*(.+)$` of
`parseParticipants`, returning (date text, names text).  Each `\d{1,2}` is
always followed by a non-digit in any successful match, so greedy digit runs
with a length check are exact; the optional range alternatives are tried
longest-first, as the regex engine does. -/
def matchDatePrefix (line : JStr) : Option (JStr × JStr) :=
  let d1 := line.takeWhile isDigitChar
  let r1 := line.dropWhile isDigitChar
  if d1 = [] || 2 < d1.length then none
  else
    match r1 with
    | sl :: r2 =>
      if sl = '/' then
        let d2 := r2.takeWhile isDigitChar
        let r3 := r2.dropWhile isDigitChar
        if d2 = [] || 2 < d2.length then none
        else
          let base := d1 ++ '/' :: d2
          match r3 with
          | dash :: r4 =>
            if dash = '-' then
              let d3 := r4.takeWhile isDigitChar
              let r5 := r4.dropWhile isDigitChar
              if d3 = [] || 2 < d3.length then
                (colonRest r3).map (fun ns => (base, ns))
              else
                match r5 with
                | sl2 :: r6 =>
                  if sl2 = '/' then
                    let d4 := r6.takeWhile isDigitChar
                    let r7 := r6.dropWhile isDigitChar
                    if d4 = [] || 2 < d4.length then
                      match colonRest r5 with
                      | some ns => some (base ++ '-' :: d3, ns)
                      | none => (colonRest r3).map (fun ns => (base, ns))
                    else
                      match colonRest r7 with
                      | some ns => some (base ++ '-' :: d3 ++ '/' :: d4, ns)
                      | none =>
                        match colonRest r5 with
                        | some ns => some (base ++ '-' :: d3, ns)
                        | none => (colonRest r3).map (fun ns => (base, ns))
                  else
                    match colonRest r5 with
                    | some ns => some (base ++ '-' :: d3, ns)
                    | none => (colonRest r3).map (fun ns => (base, ns))
                | [] =>
                  match colonRest r5 with
                  | some ns => some (base ++ '-' :: d3, ns)
                  | none => (colonRest r3).map (fun ns => (base, ns))
            else (colonRest r3).map (fun ns => (base, ns))
          | [] => (colonRest r3).map (fun ns => (base, ns))
      else none
    | [] => none

/-- `str.replace(/\r\n/g, "\n").replace(/\r/g, "\n")` as one scan. -/
def normalizeNewlines : JStr → JStr
  | [] => []
  | [x] => if x = '\r' then ['\n'] else [x]
  | x :: y :: rest =>
    if x = '\r' then
      if y = '\n' then '\n' :: normalizeNewlines rest
      else '\n' :: normalizeNewlines (y :: rest)
    else x :: normalizeNewlines (y :: rest)

/-- Split at every occurrence of a separator character class. -/
def splitAnyChar (p : Char → Bool) : JStr → List JStr
  | [] => [[]]
  | x :: xs =>
    if p x then [] :: splitAnyChar p xs
    else
      match splitAnyChar p xs with
      | h :: t => (x :: h) :: t
      | [] => [[x]]

/-- The name-list separator class `[、，,]`. -/
def nameSeparator (c : Char) : Bool := c = '、' || c = '，' || c = ','

/-- `namesStr.split(/[、，,]+/).map(trim).filter(nonempty)`: splitting on a
`+`-collapsed class then filtering empties equals splitting at every single
separator and filtering, since the extra runs only contribute empty tokens. -/
def splitNames (s : JStr) : List JStr :=
  ((splitAnyChar nameSeparator s).map jsTrim).filter (· ≠ [])

/-- A participant entry `{name, days}` produced by `parseParticipants`;
`days = none` models the JS `undefined` that flows out of a malformed
multi-dash range. -/
structure Participant where
  name : JStr
  days : Option Int
deriving DecidableEq, Repr

/-- One trimmed line of the participant cell. -/
def parseParticipantLine (activityDate : Option SimpleDate) (line : JStr) :
    List Participant :=
  let line := jsTrim line
  if line = [] then []
  else
    match matchDatePrefix line with
    | some (dateStr, namesStr) =>
      let days := parseDateRange dateStr activityDate
      (splitNames namesStr).map (fun n => ⟨n, days⟩)
    | none => (splitNames line).map (fun n => ⟨n, some 0⟩)

/-- `parseParticipants(value, activityDate)` of excelParser.js (the
date-prefix-aware version). -/
def parseParticipants (value : JStr) (activityDate : Option SimpleDate) :
    List Participant :=
  if value = [] then []
  else
    let str := jsTrim value
    if str = [] then []
    else
      let str := normalizeNewlines str
      (splitOnChar '\n' str).flatMap (parseParticipantLine activityDate)

/-! ## `parseNameWithDate` (src/unnamed/part_003) -/

/-- Result of `parseNameWithDate`: `{ name, days, error? }`. -/
structure ParsedName where
  name : JStr
  days : Int
  error : Option JStr
deriving DecidableEq, Repr

/-- Regex `^(.+?)[（(](.+?)[）)]$` of `parseNameWithDate`: because both
groups are lazy and the closer is anchored at the end, a match exists exactly
when the last character is a closing bracket and some opening bracket occurs
at an index in `[1, n-3]`; the name is everything before the first such
opener, the date text everything between it and the final character. -/
def matchNameBracket (s : JStr) : Option (JStr × JStr) :=
  if s.length < 3 then none
  else if ¬ (s.getLast? = some ')' ∨ s.getLast? = some '）') then none
  else
    match (List.range s.length).find? (fun i =>
        decide (1 ≤ i) && decide (i + 3 ≤ s.length) &&
        (s.get? i = some '(' || s.get? i = some '（')) with
    | some i => some (s.take i, (s.drop (i + 1)).dropLast)
    | none => none

/-- `parseNameWithDate(nameWithDate, activityDate)` of part_003: strips a
trailing parenthesised date from a name token and computes its inclusive day
count, guarding invalid and reversed ranges with `days = 0` plus an error.
The result is `Option ParsedName`: `none` models the implicit `undefined`
return when a dash-containing date text does not split into exactly two
parts. -/
def parseNameWithDate (nameWithDate : JStr) (activityDate : Option SimpleDate) :
    Option ParsedName :=
  if nameWithDate = [] then some ⟨[], 0, some (jstr "名字為空或格式錯誤")⟩
  else
    let trimmed := jsTrim nameWithDate
    match matchNameBracket trimmed with
    | none => some ⟨trimmed, 0, none⟩
    | some (rawName, rawDate) =>
      let name := jsTrim rawName
      let dateStr := jsTrim rawDate
      if name = [] then some ⟨[], 0, some (jstr "無法提取名字: " ++ trimmed)⟩
      else
        let defaultMonth : Option Int := activityDate.map (·.month)
        if jsIncludesChar dateStr '-' then
          match splitOnChar '-' dateStr with
          | [p1, p2] =>
            let startPart := jsTrim p1
            let endPart := jsTrim p2
            let startMD : Option (Int × Int) :=
              if jsIncludesChar startPart '/' then
                matchMD startPart
              else
                match defaultMonth with
                | none => none
                | some dm =>
                  match jsParseInt startPart with
                  | none => none
                  | some day =>
                    if day < 1 || 31 < day then none else some (dm, day)
            match startMD with
            | none =>
              if jsIncludesChar startPart '/' then
                some ⟨name, 0, some (jstr "無法解析開始日期: " ++ startPart)⟩
              else
                match defaultMonth with
                | none =>
                  some ⟨name, 0,
                    some (jstr "日期格式需要包含月份或活動日期: " ++ dateStr)⟩
                | some _ =>
                  some ⟨name, 0, some (jstr "無法解析開始日期: " ++ startPart)⟩
            | some (startMonth, startDay) =>
              let endMD : Option (Int × Int) :=
                if jsIncludesChar endPart '/' then
                  matchMD endPart
                else
                  let endMonth :=
                    if jsIncludesChar startPart '/' then startMonth
                    else
                      match defaultMonth with
                      | some dm => if dm = 0 then startMonth else dm
                      | none => startMonth
                  match jsParseInt endPart with
                  | none => none
                  | some day =>
                    if day < 1 || 31 < day then none else some (endMonth, day)
              match endMD with
              | none => some ⟨name, 0, some (jstr "無法解析結束日期: " ++ endPart)⟩
              | some (endMonth, endDay) =>
                if startMonth < 1 || 12 < startMonth || startDay < 1 ||
                   31 < startDay || endMonth < 1 || 12 < endMonth ||
                   endDay < 1 || 31 < endDay then
                  some ⟨name, 0, some (jstr "日期無效: " ++ dateStr)⟩
                else
                  let startDate := jsMakeDate defaultYear (startMonth - 1) startDay
                  let endDate := jsMakeDate defaultYear (endMonth - 1) endDay
                  if startDate.month ≠ startMonth || startDate.day ≠ startDay ||
                     endDate.month ≠ endMonth || endDate.day ≠ endDay then
                    some ⟨name, 0, some (jstr "日期無效: " ++ dateStr)⟩
                  else
                    let diffTime := getTimeMs endDate - getTimeMs startDate
                    let days := diffTime.fdiv 86400000 + 1
                    if days < 1 then
                      some ⟨name, 0, some (jstr "日期範圍無效: " ++ dateStr)⟩
                    else some ⟨name, days, none⟩
          | _ => none
        else
          match matchMD dateStr with
          | none => some ⟨name, 0, some (jstr "無法解析日期格式: " ++ dateStr)⟩
          | some (m, d) =>
            if m < 1 || 12 < m || d < 1 || 31 < d then
              some ⟨name, 0, some (jstr "日期無效: " ++ dateStr)⟩
            else
              let date := jsMakeDate defaultYear (m - 1) d
              if date.month ≠ m || date.day ≠ d then
                some ⟨name, 0, some (jstr "日期無效: " ++ dateStr)⟩
              else some ⟨name, 1, none⟩

/-! ## Name-alias resolution (src/src/utils/nameAliases.js)

The alias table `nameAliases.json` is external configuration data (it is not
under src/), so every function is parameterized by the table, modelled as an
association list in JS object iteration order. -/

/-- The alias table: variant name to canonical name, in iteration order. -/
abbrev AliasMap := List (JStr × JStr)

/-- JS object property read `map[k]`. -/
def jsObjGet (map : AliasMap) (k : JStr) : Option JStr :=
  (map.find? (fun e => e.1 = k)).map (·.2)

/-- `normalizeName(name)`: direct lookup, `map[name] || name`. -/
def normalizeName (map : AliasMap) (name : JStr) : JStr :=
  if name = [] then name
  else
    match jsObjGet map name with
    | some v => if v = [] then name else v
    | none => name

/-- `getLastNameTwoChars(name)`: the last two characters of the trimmed
name, the whole trimmed name when its length is at most 2, empty for
empty/blank input. -/
def getLastNameTwoChars (name : JStr) : JStr :=
  if name = [] then []
  else
    let trimmed := jsTrim name
    if trimmed.length = 0 then []
    else if trimmed.length ≤ 2 then trimmed
    else trimmed.drop (trimmed.length - 2)

/-- `findNameByLastTwoChars(lastTwoChars)`: first canonical value of the
table whose own last two characters equal the argument, `null` when the
argument is empty or nothing matches. -/
def findNameByLastTwoChars (map : AliasMap) (lastTwoChars : JStr) : Option JStr :=
  if lastTwoChars = [] then none
  else (map.find? (fun e => getLastNameTwoChars e.2 = lastTwoChars)).map (·.2)

/-- Modelled from the spec: `nameAliases.json` is absent from src/; the spec
describes its values as *canonical* names, i.e. a value either does not occur
as a variant key or maps to itself. -/
def TableCanonical (map : AliasMap) : Prop :=
  ∀ e ∈ map, jsObjGet map e.2 = none ∨ jsObjGet map e.2 = some e.2

instance (map : AliasMap) : Decidable (TableCanonical map) := by
  unfold TableCanonical; infer_instance

/-! ## Content-type classifier and hour-log processing
(src/src/utils/hourLogProcessor.js)

The `reportType.js` vocabulary is external configuration (not under src/),
so the classifier is parameterized by the ordered vocabulary list. -/

/-- A JS value as read from a cell field (string / number / null /
undefined), used where the source checks `typeof`. -/
inductive JsVal where
  | str (s : JStr)
  | num (n : Int)
  | nullv
  | undef
deriving DecidableEq, Repr

/-- JS `String.prototype.includes(needle)`: substring containment. -/
def jsIncludes (hay needle : JStr) : Bool :=
  needle.isPrefixOf hay ||
    match hay with
    | [] => false
    | _ :: t => jsIncludes t needle

/-- `matchReportType(content)`: first vocabulary keyword occurring as a
substring of the content, `null` for no match or for empty/non-string
content. -/
def matchReportType (vocab : List JStr) (content : JsVal) : Option JStr :=
  match content with
  | .str s => if s = [] then none else vocab.find? (fun t => jsIncludes s t)
  | _ => none

/-- The unclassified sentinel `未分類`. -/
def unclassified : JStr := jstr "未分類"

/-- `matchedType || '未分類'`. -/
def matchedOrUnclassified (matched : Option JStr) : JStr :=
  match matched with
  | some t => if t = [] then unclassified else t
  | none => unclassified

/-- A raw hour-log row (name, date, content, hours, row number). -/
structure HourLogRaw where
  name : JStr
  date : Option SimpleDate
  content : JsVal
  hours : Int
  rowNumber : Int
deriving DecidableEq, Repr

/-- `record.content || ''`. -/
def contentOrEmpty (v : JsVal) : JsVal :=
  match v with
  | .str s => .str s
  | .num n => if n = 0 then .str [] else .num n
  | .nullv => .str []
  | .undef => .str []

/-- Template-literal text of a JS value. -/
def contentText (v : JsVal) : JStr :=
  match v with
  | .str s => s
  | .num n => (toString n).data
  | .nullv => jstr "null"
  | .undef => jstr "undefined"

/-- A processed hour-log row: the raw fields plus `standardName` and
`matchedContentType`. -/
structure HourLogProcessed where
  raw : HourLogRaw
  standardName : JStr
  matchedContentType : JStr
deriving DecidableEq, Repr

/-- `standardName || lastTwoChars || originalName` together with the
suffix lookup that produces `standardName`. -/
def standardNameOf (map : AliasMap) (name : JStr) : JStr :=
  let lastTwoChars := getLastNameTwoChars name
  match findNameByLastTwoChars map lastTwoChars with
  | some v => if v = [] then (if lastTwoChars = [] then name else lastTwoChars) else v
  | none => if lastTwoChars = [] then name else lastTwoChars

/-- The diagnostics messages pushed for one row of `processHourLogData`:
one when the suffix lookup finds no canonical name, one when the content
matches no vocabulary keyword. -/
def hourLogErrors (map : AliasMap) (vocab : List JStr) (r : HourLogRaw) :
    List JStr :=
  (match findNameByLastTwoChars map (getLastNameTwoChars r.name) with
   | none => [jstr "找不到志工姓名對應: " ++ r.name ++ jstr " (最後兩字: " ++
       getLastNameTwoChars r.name ++ jstr ")"]
   | some _ => []) ++
  (match matchReportType vocab (contentOrEmpty r.content) with
   | none => [jstr "找不到參與內容分類: \"" ++ contentText (contentOrEmpty r.content) ++
       jstr "\" (第 " ++ (toString r.rowNumber).data ++ jstr " 行)"]
   | some _ => [])

/-- `processHourLogData(data)`: rows without a name are skipped; every other
row yields exactly one processed entry, with the suffix-resolution fallback
chain for `standardName` and the unclassified sentinel for
`matchedContentType`; failures accumulate into the diagnostics list (the
source keeps it in the local `errors` array and logs it). -/
def processHourLogData (map : AliasMap) (vocab : List JStr)
    (data : List HourLogRaw) : List HourLogProcessed × List JStr :=
  data.foldl (fun acc record =>
    if record.name = [] then acc
    else
      (acc.1 ++ [⟨record, standardNameOf map record.name,
         matchedOrUnclassified (matchReportType vocab (contentOrEmpty record.content))⟩],
       acc.2 ++ hourLogErrors map vocab record)) ([], [])

/-! ## Chart-23 difference reconciliation
(src/src/utils/dateParser.js, `exportCurrentChartsToExcel` lines 552-578)

The surrounding export code extracts a name-to-hours map from each dataset
(`safeNumber(item[手作])` and `safeNumber(item[步道實作帶領])`); the join
itself is embedded here over the two extracted maps.  JS objects are built
by `forEach` assignment (last write wins, first-insertion position kept) and
the name `Set` iterates in insertion order; `Array.prototype.sort` is stable
and is modelled by the stable `List.mergeSort`. -/

unseal List.merge List.mergeSort

/-- JS object property assignment `m[k] = v`. -/
def objSet (m : List (JStr × Int)) (k : JStr) (v : Int) : List (JStr × Int) :=
  if (m.find? (fun e => e.1 = k)).isSome then
    m.map (fun e => if e.1 = k then (k, v) else e)
  else m ++ [(k, v)]

/-- Build a JS object from `forEach` assignments. -/
def buildObj (l : List (JStr × Int)) : List (JStr × Int) :=
  l.foldl (fun m e => objSet m e.1 e.2) []

/-- `m[k] || 0`: first-match property read, 0 when absent. -/
def objGet0 (m : List (JStr × Int)) (k : JStr) : Int :=
  match m with
  | [] => 0
  | e :: rest => if e.1 = k then e.2 else objGet0 rest k

/-- `new Set([...])` in insertion order. -/
def dedupKeys (l : List JStr) : List JStr :=
  l.foldl (fun acc k => if k ∈ acc then acc else acc ++ [k]) []

/-- The chart-23 difference rows: union of the names of both maps, signed
difference A minus B with absent names contributing 0, zero differences
dropped, sorted by difference descending. -/
def reconcileDifference (A B : List (JStr × Int)) : List (JStr × Int) :=
  let participantHoursMap := buildObj A
  let hourLogMap := buildObj B
  let allNames := dedupKeys (A.map (·.1) ++ B.map (·.1))
  let differenceRows := allNames.foldl (fun acc name =>
    let difference := objGet0 participantHoursMap name - objGet0 hourLogMap name
    if difference ≠ 0 then acc ++ [(name, difference)] else acc) []
  differenceRows.mergeSort (fun x y => y.2 ≤ x.2)

/-! ## Aggregation engine
(src/unnamed/part_002 and part_003 `dataProcessor`, and
src/src/utils/hourLogProcessor.js) -/

/-- `activityType || '未分類'` (and the analogous city fallback). -/
def orUnclassified (s : JStr) : JStr := if s = [] then unclassified else s

/-- `${year}年${month}月`. -/
def formatMonth (y m : Int) : JStr :=
  (toString y).data ++ jstr "年" ++ (toString m).data ++ jstr "月"

/-- A participant cell value as stored on a record: a plain name string
(old format) or a `{name, days}` entry (date-prefixed format).  An `entry`
whose name is empty would make the source treat the raw object as a name
string; `parseParticipants` never produces empty names, and the embedding
routes that degenerate case through the empty-name skip. -/
inductive ParticipantVal where
  | plain (name : JStr)
  | entry (p : Participant)
deriving DecidableEq, Repr

/-- The name of a participant value. -/
def participantName (pv : ParticipantVal) : JStr :=
  match pv with
  | .plain n => n
  | .entry p => p.name

/-- `participant.days || 0` for the date-prefixed format, `0` otherwise. -/
def participantPrefixDays (pv : ParticipantVal) : Int :=
  match pv with
  | .plain _ => 0
  | .entry p =>
    match p.days with
    | some d => d
    | none => 0

/-- A normalized activity record (rows with unparseable dates were already
dropped, so `date` is present). -/
structure ActivityRecord where
  date : SimpleDate
  activityName : JStr
  status : JStr
  days : Int
  activityType : JStr
  city : JStr
  volunteerCount : Int
  hours : Int
  participants : List ParticipantVal
  rowNumber : Int
deriving DecidableEq, Repr

/-- A month pivot row `{month, year, monthNum, [category]: total, ...}`;
the dynamic category properties are kept as `cols` in insertion order. -/
structure MonthRow where
  month : JStr
  year : Int
  monthNum : Int
  cols : List (JStr × Int)
deriving DecidableEq, Repr

/-- `if (!row[ty]) row[ty] = 0; row[ty] += delta` on the dynamic
properties of a sparse accumulator row. -/
def colsBump (cols : List (JStr × Int)) (ty : JStr) (delta : Int) :
    List (JStr × Int) :=
  if (cols.find? (fun e => e.1 = ty)).isSome then
    cols.map (fun e => if e.1 = ty then (e.1, e.2 + delta) else e)
  else cols ++ [(ty, delta)]

/-- `calculateMonthlyActivityTypeCount(data)` (part_002): month-keyed sparse
accumulator — a row acquires a category column only when that category
occurs in that month — then `Object.values` sorted by year/month. -/
def calculateMonthlyActivityTypeCount (data : List ActivityRecord) :
    List MonthRow :=
  let stats := data.foldl (fun stats record =>
    let year := record.date.year
    let month := record.date.month
    let key := (toString year).data ++ '-' :: (toString month).data
    let monthLabel := formatMonth year month
    let activityType := orUnclassified record.activityType
    let stats := if (stats.find? (fun e => e.1 = key)).isSome then stats
      else stats ++ [(key, (⟨monthLabel, year, month, []⟩ : MonthRow))]
    stats.map (fun e =>
      if e.1 = key then (e.1, { e.2 with cols := colsBump e.2.cols activityType 1 })
      else e)) []
  (stats.map (·.2)).mergeSort (fun a b =>
    if a.year = b.year then a.monthNum ≤ b.monthNum else a.year ≤ b.year)

/-- A matrix is rectangular when every column key of any row occurs in
every other row. -/
def RectangularRows (rows : List MonthRow) : Prop :=
  ∀ r1 ∈ rows, ∀ r2 ∈ rows, ∀ k, k ∈ r1.cols.map Prod.fst →
    k ∈ r2.cols.map Prod.fst

instance (rows : List MonthRow) : Decidable (RectangularRows rows) := by
  unfold RectangularRows; infer_instance

/-- A person pivot row `{name, [category]: total, ...}`. -/
structure PersonRow where
  name : JStr
  cols : List (JStr × Int)
deriving DecidableEq, Repr

/-- Total of a person row across all categories (the sort key of the
person pivots, computed over the numeric properties). -/
def rowTotal (r : PersonRow) : Int := (r.cols.map Prod.snd).sum

/-- The year-window options of
`calculateVolunteerHoursByContentWithOptions`. -/
structure YearOptions where
  years : Option (List Int)
  year : Option Int
  startYear : Option Int
  endYear : Option Int
deriving DecidableEq, Repr

/-- The record-year filter: an explicit year set takes precedence, then an
inclusive start/end range, then a single year, else keep everything. -/
def yearFilterKeep (o : YearOptions) (recordYear : Int) : Bool :=
  let yearsSet := match o.years with
    | some l => if 0 < l.length then some l else none
    | none => none
  match yearsSet with
  | some l => l.contains recordYear
  | none =>
    if o.startYear.isSome && o.endYear.isSome then
      o.startYear.getD 0 ≤ recordYear && recordYear ≤ o.endYear.getD 0
    else if o.year.isSome then recordYear = o.year.getD 0
    else true

/-- `if (!stats[name]) stats[name] = {}; stats[name][content] += hours`
with zero-initialisation of the missing cell. -/
def statsBump (stats : List (JStr × List (JStr × Int))) (name ty : JStr)
    (v : Int) : List (JStr × List (JStr × Int)) :=
  let stats := if (stats.find? (fun e => e.1 = name)).isSome then stats
    else stats ++ [(name, [])]
  stats.map (fun e => if e.1 = name then (e.1, colsBump e.2 ty v) else e)

/-- Lexicographic code-point order on strings (JS default `sort()`). -/
def lexLe : JStr → JStr → Bool
  | [], _ => true
  | _ :: _, [] => false
  | x :: xs, y :: ys =>
    if x < y then true
    else if y < x then false
    else lexLe xs ys

/-- `calculateVolunteerHoursByContentWithOptions(processedData, options)`
(hourLogProcessor.js): per-person hour totals by matched content type, every
row zero-filled over `reportType ∪ {未分類}`, sorted by per-person total
descending; second component is the sorted list of content types with a
positive cell. -/
def calculateVolunteerHoursByContentWithOptions (vocab : List JStr)
    (processedData : List HourLogProcessed) (options : YearOptions) :
    List PersonRow × List JStr :=
  let contentTypesList := dedupKeys (vocab ++ [unclassified])
  let stats := processedData.foldl (fun stats record =>
    let recordYear := match record.raw.date with
      | some d => d.year
      | none => 0
    if yearFilterKeep options recordYear then
      let name := record.standardName
      let content := if record.matchedContentType = [] then unclassified
        else record.matchedContentType
      let hours := record.raw.hours
      if name = [] || hours ≤ 0 then stats
      else statsBump stats name content hours
    else stats) []
  let result := stats.map (fun e =>
    (⟨e.1, contentTypesList.map (fun c => (c, objGet0 e.2 c))⟩ : PersonRow))
  let sorted := result.mergeSort (fun a b => rowTotal b ≤ rowTotal a)
  let used := dedupKeys (sorted.flatMap (fun item =>
    (item.cols.filter (fun e => 0 < e.2)).map Prod.fst))
  (sorted, used.mergeSort lexLe)

/-- All-zero initial person row over the collected activity types
(`activityTypesSet.forEach(type => stats[name][type] = 0)`). -/
def initPersonRow (typesList : List JStr) : List (JStr × Int) :=
  typesList.map (fun t => (t, 0))

/-- `if (!stats[name]) { init all types to 0 };
stats[name][ty] = (stats[name][ty] || 0) + v` of part_003. -/
def statsAdd (typesList : List JStr)
    (stats : List (JStr × List (JStr × Int))) (name ty : JStr) (v : Int) :
    List (JStr × List (JStr × Int)) :=
  let stats := if (stats.find? (fun e => e.1 = name)).isSome then stats
    else stats ++ [(name, initPersonRow typesList)]
  stats.map (fun e =>
    if e.1 = name then (e.1, objSet e.2 ty (objGet0 e.2 ty + v)) else e)

/-- `calculateParticipantHours(data)` (part_003): person-by-activity-type
hour totals.  Per participant, hours prefer the date-prefix day count times
8, then the name-suffix parsed day count times 8, then the record hours.
`none` models the TypeError the source would throw when `parseNameWithDate`
returns `undefined` (malformed multi-dash parenthetical). -/
def calculateParticipantHours (map : AliasMap) (data : List ActivityRecord) :
    Option (List PersonRow) :=
  let typesList := dedupKeys (data.map (fun r => orUnclassified r.activityType))
  let statsOpt := data.foldlM (fun stats record =>
    record.participants.foldlM (fun stats pv =>
      match parseNameWithDate (participantName pv) (some record.date) with
      | none => none
      | some parsed =>
        if parsed.name = [] then some stats
        else
          let normalizedName := normalizeName map parsed.name
          let hours := if 0 < participantPrefixDays pv then
              participantPrefixDays pv * 8
            else if 0 < parsed.days then parsed.days * 8
            else record.hours
          some (statsAdd typesList stats normalizedName
            (orUnclassified record.activityType) hours)) stats) []
  match statsOpt with
  | none => none
  | some stats =>
    some ((stats.map (fun e => (⟨e.1, e.2⟩ : PersonRow))).mergeSort
      (fun a b => rowTotal b ≤ rowTotal a))

/-- The hours one participant value contributes under the preference order
of the claim: date-prefix days × 8, else parsed-suffix days × 8, else the
record hours. -/
def participantHoursOf (r : ActivityRecord) (pv : ParticipantVal)
    (parsed : ParsedName) : Int :=
  if 0 < participantPrefixDays pv then participantPrefixDays pv * 8
  else if 0 < parsed.days then parsed.days * 8
  else r.hours

/-- The per-participant step of the `calculateParticipantHours` fold, named
so the fold can be reasoned about; definitionally the inline step of the
source embedding. -/
def phStep (map : AliasMap) (tl : List JStr) (record : ActivityRecord)
    (stats : List (JStr × List (JStr × Int))) (pv : ParticipantVal) :
    Option (List (JStr × List (JStr × Int))) :=
  match parseNameWithDate (participantName pv) (some record.date) with
  | none => none
  | some parsed =>
    if parsed.name = [] then some stats
    else
      some (statsAdd tl stats (normalizeName map parsed.name)
        (orUnclassified record.activityType) (participantHoursOf record pv parsed))

/-- The hours a single participant value contributes to person `n`: zero
unless its (suffix-parsed) name is nonempty and normalizes to `n`, in which
case the preference-order hours. -/
def pvContribution (map : AliasMap) (r : ActivityRecord) (pv : ParticipantVal)
    (n : JStr) : Int :=
  match parseNameWithDate (participantName pv) (some r.date) with
  | none => 0
  | some parsed =>
    if parsed.name = [] then 0
    else if normalizeName map parsed.name = n then participantHoursOf r pv parsed
    else 0

/-- The total hours a single record contributes to person `n` in category
`ty`: the sum, over its participants resolving to `n`, of the
preference-order hours; `0` for a category other than the record's own. -/
def recordContribution (map : AliasMap) (r : ActivityRecord) (n ty : JStr) :
    Int :=
  if orUnclassified r.activityType = ty then
    (r.participants.map (fun pv => pvContribution map r pv n)).sum
  else 0

/-- Value of person `n`, category `ty` in the sparse accumulator. -/
def statsGet0 (stats : List (JStr × List (JStr × Int))) (n ty : JStr) : Int :=
  match stats with
  | [] => 0
  | e :: rest => if e.1 = n then objGet0 e.2 ty else statsGet0 rest n ty

/-- Spec notion: the inclusive number of calendar days from `s` to `e`
(meaningful when `s ≤ e`): the difference of their epoch day numbers plus
one, so that a one-day range counts 1 and `6/30-7/1` counts 2. -/
def inclusiveDayCount (s e : SimpleDate) : Int := epochDay e - epochDay s + 1

/-! ## Support lemmas about the string model -/

theorem digit_char_facts {ch : Char} (hd : isDigitChar ch = true) :
    jsIsWhitespace ch = false ∧ ch ≠ '/' ∧ ch ≠ '-' ∧ ch ≠ '(' ∧ ch ≠ '（' ∧
    ch ≠ '年' ∧ ch ≠ '.' := by
  have hne : ∀ c : Char, isDigitChar c = false → ch ≠ c := by
    intro c hc heq
    rw [heq, hc] at hd
    cases hd
  refine ⟨?_, hne _ (by decide), hne _ (by decide), hne _ (by decide),
    hne _ (by decide), hne _ (by decide), hne _ (by decide)⟩
  simp only [jsIsWhitespace, Bool.or_eq_false_iff, decide_eq_false_iff_not]
  exact ⟨⟨⟨⟨⟨⟨⟨⟨hne _ (by decide), hne _ (by decide)⟩, hne _ (by decide)⟩,
    hne _ (by decide)⟩, hne _ (by decide)⟩, hne _ (by decide)⟩,
    hne _ (by decide)⟩, hne _ (by decide)⟩, hne _ (by decide)⟩

theorem dropWhile_eq_self_of {p : Char → Bool} {l : JStr}
    (h : ∀ x ∈ l, p x = false) : l.dropWhile p = l := by
  cases l with
  | nil => rfl
  | cons x xs => simp [List.dropWhile, h x (by simp)]

theorem jsTrim_eq_self {s : JStr} (h : ∀ x ∈ s, jsIsWhitespace x = false) :
    jsTrim s = s := by
  unfold jsTrim
  rw [dropWhile_eq_self_of h, dropWhile_eq_self_of (by simpa using h), List.reverse_reverse]

theorem stripDelimAux_eq_self {o c : Char} {s : JStr} (h : ∀ x ∈ s, x ≠ o) :
    stripDelimAux o c s none = s := by
  induction s with
  | nil => rfl
  | cons x xs ih =>
    simp only [stripDelimAux, if_neg (h x (by simp))]
    rw [ih (fun y hy => h y (by simp [hy]))]

theorem stripDelim_eq_self {o c : Char} {s : JStr} (h : ∀ x ∈ s, x ≠ o) :
    stripDelim o c s = s := stripDelimAux_eq_self h

theorem contains_eq_false {c : Char} {s : JStr} (h : ∀ x ∈ s, x ≠ c) :
    s.contains c = false := by
  induction s with
  | nil => rfl
  | cons x xs ih =>
    have hx : (c == x) = false := beq_eq_false_iff_ne.mpr (Ne.symm (h x (by simp)))
    simp only [List.contains_cons, Bool.or_eq_false_iff]
    exact ⟨hx, ih (fun y hy => h y (by simp [hy]))⟩

theorem splitOnChar_of_not_contains {c : Char} {s : JStr}
    (h : s.contains c = false) : splitOnChar c s = [s] := by
  induction s with
  | nil => rfl
  | cons x xs ih =>
    simp only [List.contains_cons, Bool.or_eq_false_iff, beq_eq_false_iff_ne, ne_eq] at h
    have hx : ¬ x = c := fun heq => h.1 heq.symm
    simp only [splitOnChar, if_neg hx, ih h.2]

theorem splitOnChar_append {c : Char} {a : JStr} (ha : a.contains c = false)
    (b : JStr) : splitOnChar c (a ++ c :: b) = a :: splitOnChar c b := by
  induction a with
  | nil => simp [splitOnChar]
  | cons x xs ih =>
    simp only [List.contains_cons, Bool.or_eq_false_iff, beq_eq_false_iff_ne, ne_eq] at ha
    have hx : ¬ x = c := fun heq => ha.1 heq.symm
    simp only [List.cons_append, splitOnChar, if_neg hx]
    rw [List.append_eq, ih ha.2]

theorem dropWhile_append_of_all {p : Char → Bool} {a : JStr}
    (ha : ∀ x ∈ a, p x = true) {y : Char} (hy : p y = false) (b : JStr) :
    (a ++ y :: b).dropWhile p = y :: b := by
  induction a with
  | nil => simp [List.dropWhile, hy]
  | cons x xs ih =>
    simp only [List.cons_append, List.dropWhile, ha x (by simp)]
    exact ih (fun z hz => ha z (by simp [hz]))

theorem goodSeg_chars {s : JStr} (h : goodSeg s) :
    ∀ x ∈ s, isDigitChar x = true := by
  have := h.2.2
  simpa [List.all_eq_true] using this

theorem matchMD_append {a b : JStr} (ha : goodSeg a) (hb : goodSeg b) :
    matchMD (a ++ '/' :: b) =
      some ((digitsToNat a : Int), (digitsToNat b : Int)) := by
  have hca : a.contains '/' = false :=
    contains_eq_false (fun x hx => (digit_char_facts (goodSeg_chars ha x hx)).2.1)
  unfold matchMD
  rw [splitOnChar_append hca, splitOnChar_of_not_contains
    (contains_eq_false (fun x hx => (digit_char_facts (goodSeg_chars hb x hx)).2.1))]
  simp only [if_pos]
  rw [if_pos]
  simp only [Bool.and_eq_true, decide_eq_true_eq]
  exact ⟨⟨⟨by simpa using ha.1, by simpa using ha.2.1⟩, ha.2.2⟩,
    ⟨⟨by simpa using hb.1, by simpa using hb.2.1⟩, hb.2.2⟩⟩

/-- `new Date(2025, m, d+1)` round-trips exactly when `d+1` fits in month
`m+1` of the default year (checked over the guarded domain). -/
theorem jsMakeDate_roundtrip : ∀ mN : Nat, mN < 12 → ∀ dN : Nat, dN < 31 →
    (jsMakeDate 2025 (mN : Int) ((dN : Int) + 1) =
        ⟨2025, (mN : Int) + 1, (dN : Int) + 1⟩ ↔
      (dN : Int) + 1 ≤ daysInMonth 2025 ((mN : Int) + 1)) := by decide

theorem daysInMonth_le_31 : ∀ mN : Nat, mN < 12 →
    daysInMonth 2025 ((mN : Int) + 1) ≤ 31 := by decide

theorem mdText_char_cases {a b : JStr} (ha : goodSeg a) (hb : goodSeg b) :
    ∀ x ∈ a ++ '/' :: b, isDigitChar x = true ∨ x = '/' := by
  intro x hx
  rcases List.mem_append.mp hx with h | h
  · exact Or.inl (goodSeg_chars ha x h)
  · rcases List.mem_cons.mp h with h | h
    · exact Or.inr h
    · exact Or.inl (goodSeg_chars hb x h)

/-- The repository-owned part of `parseDate` on an `M/D` text: a valid
month/day resolves to that date in the default year, an invalid one falls
through to the host-engine parse with the processed string unchanged. -/
theorem parseDateCore_md (a b : JStr) (ha : goodSeg a) (hb : goodSeg b) :
    parseDateCore (a ++ '/' :: b) =
      (if validMD (digitsToNat a) (digitsToNat b) then
        .ret (some ⟨defaultYear, (digitsToNat a : Int), (digitsToNat b : Int)⟩)
      else .fallthrough (a ++ '/' :: b)) := by
  have hchar := mdText_char_cases ha hb
  have hne : a ++ '/' :: b ≠ [] := by simp
  have hnws : ∀ x ∈ a ++ '/' :: b, jsIsWhitespace x = false := by
    intro x hx
    rcases hchar x hx with h | h
    · exact (digit_char_facts h).1
    · rw [h]; decide
  have htrim : jsTrim (a ++ '/' :: b) = a ++ '/' :: b := jsTrim_eq_self hnws
  have hstrip1 : stripDelim '(' ')' (a ++ '/' :: b) = a ++ '/' :: b :=
    stripDelim_eq_self (by
      intro x hx
      rcases hchar x hx with h | h
      · exact (digit_char_facts h).2.2.2.1
      · rw [h]; decide)
  have hstrip2 : stripDelim '（' '）' (a ++ '/' :: b) = a ++ '/' :: b :=
    stripDelim_eq_self (by
      intro x hx
      rcases hchar x hx with h | h
      · exact (digit_char_facts h).2.2.2.2.1
      · rw [h]; decide)
  have hdash : (a ++ '/' :: b).contains '-' = false :=
    contains_eq_false (by
      intro x hx
      rcases hchar x hx with h | h
      · exact (digit_char_facts h).2.2.1
      · rw [h]; decide)
  have hdot : (a ++ '/' :: b).contains '.' = false :=
    contains_eq_false (by
      intro x hx
      rcases hchar x hx with h | h
      · exact (digit_char_facts h).2.2.2.2.2.2
      · rw [h]; decide)
  have hsplit : splitOnChar '/' (a ++ '/' :: b) = [a, b] := by
    rw [splitOnChar_append (contains_eq_false
      (fun x hx => (digit_char_facts (goodSeg_chars ha x hx)).2.1)),
      splitOnChar_of_not_contains (contains_eq_false
      (fun x hx => (digit_char_facts (goodSeg_chars hb x hx)).2.1))]
  have hdropd : (a ++ '/' :: b).dropWhile isDigitChar = '/' :: b :=
    dropWhile_append_of_all (goodSeg_chars ha) (by decide) b
  have hmd : matchMD (a ++ '/' :: b) =
      some ((digitsToNat a : Int), (digitsToNat b : Int)) := matchMD_append ha hb
  have hpat : tryPatterns (a ++ '/' :: b) = none := by
    unfold tryPatterns
    rw [show matchY4Sep '/' (a ++ '/' :: b) = none by unfold matchY4Sep; rw [hsplit]]
    rw [show matchY4Sep '-' (a ++ '/' :: b) = none by
      unfold matchY4Sep; rw [splitOnChar_of_not_contains hdash]]
    rw [show matchCJKDate (a ++ '/' :: b) = none by
      unfold matchCJKDate
      rw [hdropd]
      exact if_neg (by decide)]
    rw [show matchMDY (a ++ '/' :: b) = none by unfold matchMDY; rw [hsplit]]
    rw [show matchY4Sep '.' (a ++ '/' :: b) = none by
      unfold matchY4Sep; rw [splitOnChar_of_not_contains hdot]]
  have hsingle : trySingleMD (a ++ '/' :: b) =
      (if validMD (digitsToNat a) (digitsToNat b) then
        some ⟨defaultYear, (digitsToNat a : Int), (digitsToNat b : Int)⟩
      else none) := by
    set m := digitsToNat a with hm
    set d := digitsToNat b with hd
    have step1 : trySingleMD (a ++ '/' :: b) =
        (if 1 ≤ (m : Int) && (m : Int) ≤ 12 && 1 ≤ (d : Int) && (d : Int) ≤ 31 then
          if (jsMakeDate defaultYear ((m : Int) - 1) (d : Int)).year = defaultYear &&
             (jsMakeDate defaultYear ((m : Int) - 1) (d : Int)).month = (m : Int) &&
             (jsMakeDate defaultYear ((m : Int) - 1) (d : Int)).day = (d : Int) then
            some (jsMakeDate defaultYear ((m : Int) - 1) (d : Int))
          else none
        else none) := by
      unfold trySingleMD
      rw [hmd]
    rw [step1]
    simp only [defaultYear, Bool.and_eq_true, decide_eq_true_eq]
    by_cases hg : 1 ≤ m ∧ m ≤ 12 ∧ 1 ≤ d ∧ d ≤ 31
    · have ecast1 : ((m - 1 : Nat) : Int) = (m : Int) - 1 := by omega
      have ecast2 : ((d - 1 : Nat) : Int) + 1 = (d : Int) := by omega
      have hrt := jsMakeDate_roundtrip (m - 1) (by omega) (d - 1) (by omega)
      rw [ecast1, ecast2, show (m : Int) - 1 + 1 = (m : Int) by ring] at hrt
      rw [if_pos (show ((1 ≤ (m : Int) ∧ (m : Int) ≤ 12) ∧ 1 ≤ (d : Int)) ∧
        (d : Int) ≤ 31 by omega)]
      by_cases hv : validMD m d
      · have heq : jsMakeDate 2025 ((m : Int) - 1) (d : Int) =
            ⟨2025, (m : Int), (d : Int)⟩ := hrt.mpr (by
          have h4 := hv.2.2.2
          simpa [defaultYear] using h4)
        rw [if_pos hv, heq]
        simp
      · have hnd : ¬ ((d : Int) ≤ daysInMonth 2025 (m : Int)) := fun hc =>
          hv ⟨hg.1, hg.2.1, hg.2.2.1, by simpa [defaultYear] using hc⟩
        have hneq : jsMakeDate 2025 ((m : Int) - 1) (d : Int) ≠
            ⟨2025, (m : Int), (d : Int)⟩ := fun hc => hnd (hrt.mp hc)
        rw [if_neg hv, if_neg]
        intro hc
        exact hneq (SimpleDate.ext hc.1.1 hc.1.2 hc.2)
    · have hnv : ¬ validMD m d := by
        intro hv
        obtain ⟨hv1, hv2, hv3, hv4⟩ := hv
        simp only [defaultYear] at hv4
        have hle := daysInMonth_le_31 (m - 1) (by omega)
        have hc1 : ((m - 1 : Nat) : Int) + 1 = (m : Int) := by omega
        rw [hc1] at hle
        exact hg ⟨hv1, hv2, hv3, by omega⟩
      rw [if_neg hnv, if_neg]
      omega
  rw [show parseDateCore (a ++ '/' :: b) =
      (match trySingleMD (a ++ '/' :: b) with
        | some dt => ParseDateCore.ret (some dt)
        | none =>
          match tryPatterns (a ++ '/' :: b) with
          | some dt => ParseDateCore.ret (some dt)
          | none => ParseDateCore.fallthrough (a ++ '/' :: b)) from by
    unfold parseDateCore
    rw [if_neg hne]
    simp only [htrim, hstrip1, hstrip2, jsIncludesChar, hdash]
    rw [if_neg hne]
    simp]
  rw [hsingle, hpat]
  by_cases hv : validMD (digitsToNat a) (digitsToNat b)
  · rw [if_pos hv, if_pos hv]
  · rw [if_neg hv, if_neg hv]

theorem contains_of_mem {c : Char} {s : JStr} (h : c ∈ s) :
    s.contains c = true := by
  induction s with
  | nil => cases h
  | cons x xs ih =>
    simp only [List.contains_cons, Bool.or_eq_true, beq_iff_eq]
    rcases List.mem_cons.mp h with h | h
    · exact Or.inl h
    · exact Or.inr (ih h)

/-- A valid month/day of the default year survives the `new Date` round-trip
unchanged. -/
theorem jsMakeDate_of_validMD {m d : Nat} (hv : validMD m d) :
    jsMakeDate defaultYear ((m : Int) - 1) (d : Int) =
      ⟨defaultYear, (m : Int), (d : Int)⟩ := by
  obtain ⟨h1, h2, h3, h4⟩ := hv
  simp only [defaultYear] at h4
  have hle := daysInMonth_le_31 (m - 1) (by omega)
  have hcast : ((m - 1 : Nat) : Int) + 1 = (m : Int) := by omega
  rw [hcast] at hle
  have h31 : d ≤ 31 := by omega
  have hrt := jsMakeDate_roundtrip (m - 1) (by omega) (d - 1) (by omega)
  have ecast1 : ((m - 1 : Nat) : Int) = (m : Int) - 1 := by omega
  have ecast2 : ((d - 1 : Nat) : Int) + 1 = (d : Int) := by omega
  rw [ecast1, ecast2, show (m : Int) - 1 + 1 = (m : Int) by ring] at hrt
  simp only [defaultYear]
  exact hrt.mpr h4

/-- C1: `parseDate` on an `M/D` text (digit segments `a`, `b`): when the
month (1-12) and day are a valid calendar date of the default year, the
result carries exactly that month and day with year 2025; when the month/day
are not a valid calendar date, the repository code never clamps — it hands
the unchanged text to the host generic date parse, so when that parse fails
(as it does for texts such as `13/40`) the result is `null`. -/
theorem c1_parseDate_md (fb : JStr → Option SimpleDate) (a b : JStr)
    (ha : goodSeg a) (hb : goodSeg b) :
    (validMD (digitsToNat a) (digitsToNat b) →
      parseDateText fb (a ++ '/' :: b) =
        some ⟨defaultYear, (digitsToNat a : Int), (digitsToNat b : Int)⟩) ∧
    (¬ validMD (digitsToNat a) (digitsToNat b) →
      fb (a ++ '/' :: b) = none →
      parseDateText fb (a ++ '/' :: b) = none) := by
  have hcore := parseDateCore_md a b ha hb
  constructor
  · intro hv
    unfold parseDateText
    rw [hcore, if_pos hv]
  · intro hv hfb
    unfold parseDateText
    rw [hcore, if_neg hv]
    show fb (a ++ '/' :: b) = none
    exact hfb

theorem c1_parseDate_md_witness :
    parseDateText (fun _ => none) (jstr "11/29") = some ⟨2025, 11, 29⟩ ∧
    parseDateText (fun _ => none) (jstr "13/40") = none := by
  constructor
  · exact (c1_parseDate_md (fun _ => none) (jstr "11") (jstr "29")
      (by decide) (by decide)).1 (by decide)
  · exact (c1_parseDate_md (fun _ => none) (jstr "13") (jstr "40")
      (by decide) (by decide)).2 (by decide) rfl

/-- C2: the participant-field day-count routine computes inclusive calendar
day counts against the default year: a general `M1/D1-M2/D2` range of valid
dates yields `end - start + 1` days, `11/29-30` yields 2, the cross-month
`6/30-7/1` yields 2, a single date `11/29` yields 1, and the name-suffixed
parenthetical path `建宇(21-22)` with a known activity month yields 2. -/
theorem c2_day_count_inclusive (ad : Option SimpleDate) (a1 b1 a2 b2 : JStr)
    (h1 : goodSeg a1) (h2 : goodSeg b1) (h3 : goodSeg a2) (h4 : goodSeg b2)
    (hv1 : validMD (digitsToNat a1) (digitsToNat b1))
    (hv2 : validMD (digitsToNat a2) (digitsToNat b2))
    (hle : epochDay ⟨defaultYear, (digitsToNat a1 : Int), (digitsToNat b1 : Int)⟩ ≤
           epochDay ⟨defaultYear, (digitsToNat a2 : Int), (digitsToNat b2 : Int)⟩) :
    parseDateRange (a1 ++ '/' :: b1 ++ '-' :: a2 ++ '/' :: b2) ad =
      some (inclusiveDayCount
        ⟨defaultYear, (digitsToNat a1 : Int), (digitsToNat b1 : Int)⟩
        ⟨defaultYear, (digitsToNat a2 : Int), (digitsToNat b2 : Int)⟩) ∧
    parseDateRange (jstr "11/29-30") none = some 2 ∧
    parseDateRange (jstr "6/30-7/1") none = some 2 ∧
    parseDateRange (jstr "11/29") none = some 1 ∧
    parseNameWithDate (jstr "建宇(21-22)") (some ⟨2025, 11, 29⟩) =
      some ⟨jstr "建宇", 2, none⟩ := by
  refine ⟨?_, by decide, by decide, by decide, by decide⟩
  have hassoc : a1 ++ '/' :: b1 ++ '-' :: a2 ++ '/' :: b2 =
      (a1 ++ '/' :: b1) ++ '-' :: (a2 ++ '/' :: b2) := by
    simp [List.append_assoc]
  rw [hassoc]
  have hchar1 := mdText_char_cases h1 h2
  have hchar2 := mdText_char_cases h3 h4
  have hne : (a1 ++ '/' :: b1) ++ '-' :: (a2 ++ '/' :: b2) ≠ [] := by simp
  have hnws : ∀ x ∈ (a1 ++ '/' :: b1) ++ '-' :: (a2 ++ '/' :: b2),
      jsIsWhitespace x = false := by
    intro x hx
    rcases List.mem_append.mp hx with h | h
    · rcases hchar1 x h with h | h
      · exact (digit_char_facts h).1
      · rw [h]; decide
    · rcases List.mem_cons.mp h with h | h
      · rw [h]; decide
      · rcases hchar2 x h with h | h
        · exact (digit_char_facts h).1
        · rw [h]; decide
  have htrim : jsTrim ((a1 ++ '/' :: b1) ++ '-' :: (a2 ++ '/' :: b2)) =
      (a1 ++ '/' :: b1) ++ '-' :: (a2 ++ '/' :: b2) := jsTrim_eq_self hnws
  have hnd1 : (a1 ++ '/' :: b1).contains '-' = false :=
    contains_eq_false (by
      intro x hx
      rcases hchar1 x hx with h | h
      · exact (digit_char_facts h).2.2.1
      · rw [h]; decide)
  have hnd2 : (a2 ++ '/' :: b2).contains '-' = false :=
    contains_eq_false (by
      intro x hx
      rcases hchar2 x hx with h | h
      · exact (digit_char_facts h).2.2.1
      · rw [h]; decide)
  have hdash : ((a1 ++ '/' :: b1) ++ '-' :: (a2 ++ '/' :: b2)).contains '-' = true :=
    contains_of_mem (by simp)
  have hsplit : splitOnChar '-' ((a1 ++ '/' :: b1) ++ '-' :: (a2 ++ '/' :: b2)) =
      [a1 ++ '/' :: b1, a2 ++ '/' :: b2] := by
    rw [splitOnChar_append hnd1, splitOnChar_of_not_contains hnd2]
  have htr1 : jsTrim (a1 ++ '/' :: b1) = a1 ++ '/' :: b1 := jsTrim_eq_self (by
    intro x hx
    rcases hchar1 x hx with h | h
    · exact (digit_char_facts h).1
    · rw [h]; decide)
  have htr2 : jsTrim (a2 ++ '/' :: b2) = a2 ++ '/' :: b2 := jsTrim_eq_self (by
    intro x hx
    rcases hchar2 x hx with h | h
    · exact (digit_char_facts h).1
    · rw [h]; decide)
  have hsl1 : (a1 ++ '/' :: b1).contains '/' = true := contains_of_mem (by simp)
  have hsl2 : (a2 ++ '/' :: b2).contains '/' = true := contains_of_mem (by simp)
  have hmd1 := matchMD_append h1 h2
  have hmd2 := matchMD_append h3 h4
  have heq1 := jsMakeDate_of_validMD hv1
  have heq2 := jsMakeDate_of_validMD hv2
  unfold parseDateRange
  rw [if_neg hne]
  simp only [htrim, jsIncludesChar, hdash, if_true, hsplit, htr1, htr2,
    hsl1, hsl2, hmd1, hmd2, heq1, heq2]
  simp only [ne_eq, not_true_eq_false, Bool.or_self, inclusiveDayCount,
    getTimeMs, epochDay]
  rw [if_neg (by simp)]
  rw [← sub_mul, Int.mul_fdiv_cancel _ (by norm_num)]

theorem c2_day_count_inclusive_witness :
    parseDateRange (jstr "11/29") none = some 1 := by
  have h := c2_day_count_inclusive none (jstr "11") (jstr "29") (jstr "11")
    (jstr "30") (by decide) (by decide) (by decide) (by decide)
    (by decide) (by decide) (by decide)
  exact h.2.2.2.1

/-- C10: the `days` field of `parseParticipants` entries is not guaranteed
non-negative: the reversed range line `11/30-28：甲` produces an entry with
`days = -1` (end minus start plus one), whereas the name-suffixed path
`parseNameWithDate` guards the same reversed range and returns `days = 0`
together with an error. -/
theorem c10_parseParticipants_negative_days :
    parseParticipants (jstr "11/30-28：甲") none =
      [⟨jstr "甲", some (-1)⟩] ∧
    parseNameWithDate (jstr "甲(11/30-28)") none =
      some ⟨jstr "甲", 0, some (jstr "日期範圍無效: 11/30-28")⟩ := by
  exact ⟨by decide, by decide⟩

theorem jsIncludes_infix_iff {hay needle : JStr} :
    jsIncludes hay needle = true ↔ needle <:+: hay := by
  induction hay with
  | nil =>
    simp [jsIncludes, List.isPrefixOf_iff_prefix, List.infix_nil,
      List.prefix_nil]
  | cons x t ih =>
    rw [jsIncludes, Bool.or_eq_true, List.isPrefixOf_iff_prefix, ih,
      List.infix_cons_iff]

/-- C4: direct alias resolution is total, acts as the identity on names
absent from the alias table, and — for a table whose values are canonical in
the spec's sense — is idempotent on every name occurring as a canonical
value. -/
theorem c4_normalizeName_total_idempotent (map : AliasMap) :
    (∀ name : JStr, (∀ e ∈ map, e.1 ≠ name) → normalizeName map name = name) ∧
    (TableCanonical map → ∀ x : JStr, (∃ e ∈ map, e.2 = x) →
      normalizeName map (normalizeName map x) = normalizeName map x) := by
  constructor
  · intro name h
    have hget : jsObjGet map name = none := by
      unfold jsObjGet
      rw [List.find?_eq_none.mpr (by
        intro e he
        simpa using h e he)]
      rfl
    unfold normalizeName
    rw [hget]
    by_cases hn : name = []
    · rw [if_pos hn]
    · rw [if_neg hn]
  · intro hc x hx
    obtain ⟨e, he, hev⟩ := hx
    have hcan := hc e he
    rw [hev] at hcan
    have hfix : normalizeName map x = x := by
      by_cases hx0 : x = []
      · unfold normalizeName
        rw [if_pos hx0]
      · unfold normalizeName
        rw [if_neg hx0]
        rcases hcan with h | h
        · rw [h]
        · rw [h]
          show (if x = [] then x else x) = x
          rw [if_neg hx0]
    rw [hfix, hfix]

theorem c4_normalizeName_witness :
    normalizeName [(jstr "小明", jstr "王小明")] (jstr "陳大文") =
      jstr "陳大文" ∧
    normalizeName [(jstr "小明", jstr "王小明")]
        (normalizeName [(jstr "小明", jstr "王小明")] (jstr "王小明")) =
      normalizeName [(jstr "小明", jstr "王小明")] (jstr "王小明") := by
  constructor
  · exact (c4_normalizeName_total_idempotent _).1 (jstr "陳大文") (by decide)
  · exact (c4_normalizeName_total_idempotent _).2 (by decide) (jstr "王小明")
      (by decide)

/-- C5: suffix-based resolution takes the last two characters of a
(whitespace-free) name — the whole name when its length is at most 2 — scans
the table's canonical values in iteration order, returns the first value
whose own last two characters match (so ties go to the earlier entry), and
returns `null` rather than throwing when nothing matches or the input is
empty. -/
theorem c5_suffix_resolution (map : AliasMap) :
    (∀ name : JStr, jsTrim name = name → 2 < name.length →
      getLastNameTwoChars name = name.drop (name.length - 2)) ∧
    (∀ name : JStr, jsTrim name = name → name.length ≤ 2 →
      getLastNameTwoChars name = name) ∧
    findNameByLastTwoChars map [] = none ∧
    (∀ lt : JStr, (∀ e ∈ map, getLastNameTwoChars e.2 ≠ lt) →
      findNameByLastTwoChars map lt = none) ∧
    (∀ lt : JStr, lt ≠ [] → ∀ pre e post, map = pre ++ e :: post →
      getLastNameTwoChars e.2 = lt →
      (∀ e' ∈ pre, getLastNameTwoChars e'.2 ≠ lt) →
      findNameByLastTwoChars map lt = some e.2) := by
  refine ⟨?_, ?_, rfl, ?_, ?_⟩
  · intro name ht hl
    have hn : name ≠ [] := by
      intro h
      rw [h] at hl
      simp at hl
    unfold getLastNameTwoChars
    rw [if_neg hn, ht, if_neg (by omega), if_neg (by omega)]
  · intro name ht hl
    by_cases hn : name = []
    · unfold getLastNameTwoChars
      rw [if_pos hn, hn]
    · unfold getLastNameTwoChars
      rw [if_neg hn, ht, if_neg (by
        have : name.length ≠ 0 := by
          simpa [List.length_eq_zero] using hn
        omega), if_pos hl]
  · intro lt h
    unfold findNameByLastTwoChars
    by_cases h0 : lt = []
    · rw [if_pos h0]
    · rw [if_neg h0, List.find?_eq_none.mpr (by
        intro e he
        simpa using h e he)]
      rfl
  · intro lt h0 pre e post hmap hmatch hpre
    unfold findNameByLastTwoChars
    rw [if_neg h0, hmap, List.find?_append, List.find?_eq_none.mpr (by
        intro e' he'
        simpa using hpre e' he'),
      List.find?_cons_of_pos _ (by simpa using hmatch)]
    rfl

theorem c5_suffix_resolution_witness :
    getLastNameTwoChars (jstr "王小明") = jstr "小明" ∧
    findNameByLastTwoChars
      [(jstr "a", jstr "王小明"), (jstr "b", jstr "李小明")] (jstr "小明") =
      some (jstr "王小明") ∧
    findNameByLastTwoChars
      [(jstr "a", jstr "王小明"), (jstr "b", jstr "李小明")] (jstr "大文") =
      none := by
  refine ⟨?_, ?_, ?_⟩
  · exact (c5_suffix_resolution []).1 (jstr "王小明") (by decide) (by decide)
  · exact (c5_suffix_resolution _).2.2.2.2 (jstr "小明") (by decide)
      [] (jstr "a", jstr "王小明") [(jstr "b", jstr "李小明")] rfl
      (by decide) (by decide)
  · exact (c5_suffix_resolution _).2.2.2.1 (jstr "大文") (by decide)

/-- C3: the content classifier is total — `null`/`undefined`/numeric and
empty-string inputs yield no match without throwing — and on nonempty text
returns the first category of the ordered vocabulary whose keyword is a
substring (case-sensitive, not token-based) of the text, the unclassified
sentinel standing in when nothing matches. -/
theorem c3_classifier (vocab : List JStr) :
    (∀ v : JsVal, (∀ s, v ≠ .str s) → matchReportType vocab v = none) ∧
    matchReportType vocab (.str []) = none ∧
    (∀ s : JStr, s ≠ [] → ∀ pre t post, vocab = pre ++ t :: post →
      t <:+: s → (∀ t' ∈ pre, ¬ t' <:+: s) →
      matchReportType vocab (.str s) = some t) ∧
    (∀ s : JStr, s ≠ [] → (∀ t ∈ vocab, ¬ t <:+: s) →
      matchReportType vocab (.str s) = none) ∧
    (∀ m : Option JStr, m = none → matchedOrUnclassified m = unclassified) ∧
    matchReportType [jstr "步道"] (.str (jstr "走步道去")) = some (jstr "步道") ∧
    matchReportType [jstr "abc"] (.str (jstr "xxabcyy")) = some (jstr "abc") ∧
    matchReportType [jstr "abc"] (.str (jstr "ABC")) = none := by
  refine ⟨?_, rfl, ?_, ?_, ?_, by decide, by decide, by decide⟩
  · intro v hv
    cases v with
    | str s => exact absurd rfl (hv s)
    | num n => rfl
    | nullv => rfl
    | undef => rfl
  · intro s hs pre t post hvoc hinf hpre
    show (if s = [] then none else List.find? (fun t => jsIncludes s t) vocab) =
      some t
    rw [if_neg hs, hvoc, List.find?_append, List.find?_eq_none.mpr (by
        intro t' ht' hc
        exact hpre t' ht' (jsIncludes_infix_iff.mp hc)),
      List.find?_cons_of_pos _ (jsIncludes_infix_iff.mpr hinf)]
    rfl
  · intro s hs h
    show (if s = [] then none else List.find? (fun t => jsIncludes s t) vocab) =
      none
    rw [if_neg hs, List.find?_eq_none.mpr (by
      intro t ht hc
      exact h t ht (jsIncludes_infix_iff.mp hc))]
  · intro m hm
    rw [hm]
    rfl

theorem c3_classifier_witness :
    matchReportType [jstr "回流訓練"] (.str (jstr "參加回流訓練課程")) =
      some (jstr "回流訓練") ∧
    matchReportType [jstr "回流訓練"] .nullv = none ∧
    matchReportType [jstr "回流訓練"] (.str (jstr "其他")) = none ∧
    matchedOrUnclassified (matchReportType [jstr "回流訓練"]
      (.str (jstr "其他"))) = unclassified := by
  refine ⟨?_, ?_, ?_, ?_⟩
  · exact (c3_classifier _).2.2.1 (jstr "參加回流訓練課程") (by decide)
      [] (jstr "回流訓練") [] rfl (by decide) (by simp)
  · exact (c3_classifier _).1 .nullv (fun s h => JsVal.noConfusion h)
  · exact (c3_classifier _).2.2.2.1 (jstr "其他") (by decide) (by decide)
  · exact (c3_classifier [jstr "回流訓練"]).2.2.2.2.1 _ (by decide)

/-- C9 counterexample: with an empty alias table, the row for the
three-character name `王小明` is kept, but its `standardName` fallback is the
last two characters `小明`, not the raw name — refuting "the row is kept with
the raw name as fallback". -/
theorem c9_raw_name_fallback_counterexample :
    (processHourLogData [] [] [⟨jstr "王小明", none, .str (jstr "內容"), 2, 5⟩]).1.map
        (·.standardName) = [jstr "小明"] ∧
    jstr "小明" ≠ jstr "王小明" := by
  exact ⟨by decide, by decide⟩

/-- C9 (amended): `processHourLogData` never raises: it returns exactly one
processed entry per input row that has a name, in input order; a
suffix-resolution failure keeps the row with the last two characters of the
name (the raw name only when that extraction is empty) as fallback; a
classification failure keeps the row with the unclassified bucket; and each
failure appends one message to the diagnostics list instead of being
thrown. -/
theorem c9_processHourLogData_recoverable (map : AliasMap) (vocab : List JStr)
    (data : List HourLogRaw) :
    processHourLogData map vocab data =
      ((data.filter (fun r => r.name ≠ [])).map (fun r =>
          ⟨r, standardNameOf map r.name,
            matchedOrUnclassified (matchReportType vocab (contentOrEmpty r.content))⟩),
       (data.filter (fun r => r.name ≠ [])).flatMap (hourLogErrors map vocab)) ∧
    (∀ name : JStr,
      findNameByLastTwoChars map (getLastNameTwoChars name) = none →
      getLastNameTwoChars name ≠ [] →
      standardNameOf map name = getLastNameTwoChars name) ∧
    (∀ c : JsVal, matchReportType vocab c = none →
      matchedOrUnclassified (matchReportType vocab c) = unclassified) ∧
    (∀ r : HourLogRaw,
      findNameByLastTwoChars map (getLastNameTwoChars r.name) = none →
      matchReportType vocab (contentOrEmpty r.content) = none →
      (hourLogErrors map vocab r).length = 2) := by
  refine ⟨?_, ?_, ?_, ?_⟩
  · have key : ∀ (l : List HourLogRaw) (acc : List HourLogProcessed × List JStr),
        l.foldl (fun acc record =>
          if record.name = [] then acc
          else
            (acc.1 ++ [⟨record, standardNameOf map record.name,
               matchedOrUnclassified
                 (matchReportType vocab (contentOrEmpty record.content))⟩],
             acc.2 ++ hourLogErrors map vocab record)) acc =
          (acc.1 ++ (l.filter (fun r => r.name ≠ [])).map (fun r =>
             ⟨r, standardNameOf map r.name,
               matchedOrUnclassified
                 (matchReportType vocab (contentOrEmpty r.content))⟩),
           acc.2 ++ (l.filter (fun r => r.name ≠ [])).flatMap
             (hourLogErrors map vocab)) := by
      intro l
      induction l with
      | nil => intro acc; simp
      | cons r rest ih =>
        intro acc
        rw [List.foldl_cons]
        by_cases hr : r.name = []
        · rw [if_pos hr, ih]
          simp [List.filter_cons, hr]
        · rw [if_neg hr, ih]
          simp [List.filter_cons, hr, List.append_assoc]
    unfold processHourLogData
    rw [key data ([], [])]
    simp
  · intro name hres hlt
    simp only [standardNameOf]
    rw [hres]
    show (if getLastNameTwoChars name = [] then name
      else getLastNameTwoChars name) = getLastNameTwoChars name
    rw [if_neg hlt]
  · intro c hm
    rw [hm]
    rfl
  · intro r hres hm
    unfold hourLogErrors
    rw [hres, hm]
    rfl

theorem c9_processHourLogData_witness :
    standardNameOf [] (jstr "王小明") = jstr "小明" ∧
    matchedOrUnclassified (matchReportType [] (.str (jstr "巡守"))) =
      unclassified ∧
    (hourLogErrors [] [] ⟨jstr "王小明", none, .str (jstr "巡守"), 1, 3⟩).length = 2 := by
  refine ⟨?_, ?_, ?_⟩
  · exact (c9_processHourLogData_recoverable [] [] []).2.1 (jstr "王小明")
      (by decide) (by decide)
  · exact (c9_processHourLogData_recoverable [] [] []).2.2.1 _ (by decide)
  · exact (c9_processHourLogData_recoverable [] [] []).2.2.2 _ (by decide)
      (by decide)

theorem objSet_append_of_absent {acc : List (JStr × Int)} {e : JStr × Int}
    (h : ∀ x ∈ acc, x.1 ≠ e.1) : objSet acc e.1 e.2 = acc ++ [e] := by
  unfold objSet
  rw [List.find?_eq_none.mpr (by
    intro x hx
    simpa using h x hx)]
  rfl

theorem buildObj_eq_self {l : List (JStr × Int)}
    (hnd : (l.map Prod.fst).Nodup) : buildObj l = l := by
  suffices haux : ∀ (l acc : List (JStr × Int)),
      (∀ k ∈ acc.map Prod.fst, k ∉ l.map Prod.fst) → (l.map Prod.fst).Nodup →
      l.foldl (fun m e => objSet m e.1 e.2) acc = acc ++ l by
    have := haux l [] (by simp) hnd
    simpa [buildObj] using this
  intro l
  induction l with
  | nil => intro acc _ _; simp
  | cons e rest ih =>
    intro acc hdisj hnd
    rw [List.foldl_cons, objSet_append_of_absent (by
      intro x hx hc
      exact hdisj x.1 (List.mem_map_of_mem _ hx) (by simp [hc]))]
    rw [ih (acc ++ [e]) ?_ ?_]
    · simp
    · intro k hk
      simp only [List.map_append, List.mem_append] at hk
      rcases hk with hk | hk
      · intro hc
        exact hdisj k hk (by simp [hc])
      · simp only [List.map_cons, List.map_nil, List.mem_singleton] at hk
        rw [hk]
        exact (List.nodup_cons.mp (by simpa using hnd)).1
    · exact (List.nodup_cons.mp (by simpa using hnd)).2

theorem mem_dedupKeys {l : List JStr} {n : JStr} :
    n ∈ dedupKeys l ↔ n ∈ l := by
  suffices haux : ∀ (l acc : List JStr) (n : JStr),
      (n ∈ l.foldl (fun acc k => if k ∈ acc then acc else acc ++ [k]) acc) ↔
        (n ∈ acc ∨ n ∈ l) by
    have := haux l [] n
    simpa [dedupKeys] using this
  intro l
  induction l with
  | nil => simp
  | cons k rest ih =>
    intro acc n
    rw [List.foldl_cons]
    by_cases hk : k ∈ acc
    · rw [if_pos hk, ih]
      constructor
      · rintro (h | h)
        · exact Or.inl h
        · exact Or.inr (List.mem_cons_of_mem _ h)
      · rintro (h | h)
        · exact Or.inl h
        · rcases List.mem_cons.mp h with h | h
          · exact Or.inl (h ▸ hk)
          · exact Or.inr h
    · rw [if_neg hk, ih]
      simp only [List.mem_append, List.mem_singleton, List.mem_cons]
      tauto

/-- C6: reconciliation over two person-to-hours maps with unique names:
every output row carries difference `A(n) - B(n)` (absent names read as 0)
and is nonzero; every union name with a nonzero difference appears; the
output is sorted by difference descending; and the spec's concrete instance
A = 甲↦5, B = 甲↦3, 乙↦2 yields [(甲, 2), (乙, -2)]. -/
theorem c6_reconcile_difference (A B : List (JStr × Int))
    (hA : (A.map Prod.fst).Nodup) (hB : (B.map Prod.fst).Nodup) :
    (∀ p ∈ reconcileDifference A B,
      p.2 = objGet0 A p.1 - objGet0 B p.1 ∧ p.2 ≠ 0 ∧
      (p.1 ∈ A.map Prod.fst ∨ p.1 ∈ B.map Prod.fst)) ∧
    (∀ n : JStr, (n ∈ A.map Prod.fst ∨ n ∈ B.map Prod.fst) →
      objGet0 A n - objGet0 B n ≠ 0 →
      (n, objGet0 A n - objGet0 B n) ∈ reconcileDifference A B) ∧
    (reconcileDifference A B).Pairwise (fun x y => y.2 ≤ x.2) ∧
    reconcileDifference [(jstr "甲", 5)] [(jstr "甲", 3), (jstr "乙", 2)] =
      [(jstr "甲", 2), (jstr "乙", -2)] := by
  have hrows : ∀ (names : List JStr) (acc : List (JStr × Int)),
      names.foldl (fun acc name =>
        let difference := objGet0 A name - objGet0 B name
        if difference ≠ 0 then acc ++ [(name, difference)] else acc) acc =
        acc ++ (names.filter
            (fun n => objGet0 A n - objGet0 B n ≠ 0)).map
          (fun n => (n, objGet0 A n - objGet0 B n)) := by
    intro names
    induction names with
    | nil => intro acc; simp
    | cons k rest ih =>
      intro acc
      rw [List.foldl_cons]
      show List.foldl _ (if objGet0 A k - objGet0 B k ≠ 0 then
          acc ++ [(k, objGet0 A k - objGet0 B k)] else acc) rest = _
      by_cases hk : objGet0 A k - objGet0 B k ≠ 0
      · rw [if_pos hk, ih]
        simp [List.filter_cons, hk, List.append_assoc]
      · rw [if_neg hk, ih]
        simp [List.filter_cons, hk]
  have hred : reconcileDifference A B =
      List.mergeSort
        (((dedupKeys (A.map (·.1) ++ B.map (·.1))).filter
            (fun n => objGet0 A n - objGet0 B n ≠ 0)).map
          (fun n => (n, objGet0 A n - objGet0 B n)))
        (fun x y => y.2 ≤ x.2) := by
    simp only [reconcileDifference]
    rw [buildObj_eq_self hA, buildObj_eq_self hB, hrows]
    simp
  refine ⟨?_, ?_, ?_, by decide⟩
  · intro p hp
    rw [hred] at hp
    have hp' := (List.mergeSort_perm _ _).mem_iff.mp hp
    rcases List.mem_map.mp hp' with ⟨n, hn, heq⟩
    have hfil := List.mem_filter.mp hn
    refine ⟨by rw [← heq], by
      rw [← heq]
      simpa using hfil.2, ?_⟩
    rw [← heq]
    simpa using mem_dedupKeys.mp hfil.1
  · intro n hn hne
    rw [hred]
    apply (List.mergeSort_perm _ _).mem_iff.mpr
    apply List.mem_map.mpr
    refine ⟨n, List.mem_filter.mpr ⟨mem_dedupKeys.mpr (by simpa using hn),
      by simpa using hne⟩, rfl⟩
  · rw [hred]
    have hs := @List.sorted_mergeSort (JStr × Int)
      (fun x y : JStr × Int => decide (y.2 ≤ x.2))
      (fun a b c hab hbc => by
        simp only [decide_eq_true_eq] at hab hbc ⊢
        omega)
      (fun a b => by
        simp only [Bool.or_eq_true, decide_eq_true_eq]
        omega)
      (((dedupKeys (A.map (·.1) ++ B.map (·.1))).filter
          (fun n => objGet0 A n - objGet0 B n ≠ 0)).map
        (fun n => (n, objGet0 A n - objGet0 B n)))
    exact hs.imp (by
      intro a b h
      simpa using h)

theorem c6_reconcile_difference_witness :
    reconcileDifference [(jstr "甲", 5)] [(jstr "甲", 3), (jstr "乙", 2)] =
      [(jstr "甲", 2), (jstr "乙", -2)] :=
  (c6_reconcile_difference [(jstr "甲", 5)] [(jstr "甲", 3), (jstr "乙", 2)]
    (by decide) (by decide)).2.2.2

/-! ### Sparse-accumulator lemmas for the person pivots -/

theorem objGet0_nil {k : JStr} : objGet0 [] k = 0 := rfl

theorem objGet0_initPersonRow {tl : List JStr} {t : JStr} :
    objGet0 (initPersonRow tl) t = 0 := by
  induction tl with
  | nil => rfl
  | cons t' rest ih =>
    simp only [initPersonRow, List.map_cons, objGet0]
    split
    · rfl
    · simpa [initPersonRow] using ih

theorem initPersonRow_keys {tl : List JStr} :
    (initPersonRow tl).map Prod.fst = tl := by
  rw [initPersonRow, List.map_map,
    show (Prod.fst ∘ fun t : JStr => (t, (0 : Int))) = id from rfl, List.map_id]

theorem find?_isSome_of_mem_keys {α : Type} {l : List (JStr × α)} {k : JStr}
    (h : k ∈ l.map Prod.fst) : (l.find? (fun e => e.1 = k)).isSome = true := by
  rcases List.mem_map.mp h with ⟨e, he, hk⟩
  exact List.find?_isSome.mpr ⟨e, he, by simp [hk]⟩

theorem mem_keys_of_find?_isSome {α : Type} {l : List (JStr × α)} {k : JStr}
    (h : (l.find? (fun e => e.1 = k)).isSome = true) : k ∈ l.map Prod.fst := by
  rcases List.find?_isSome.mp h with ⟨e, he, hk⟩
  simp only [decide_eq_true_eq] at hk
  exact hk ▸ List.mem_map_of_mem _ he

theorem map_set_eq_self {k : JStr} {v : Int} : ∀ {cols : List (JStr × Int)},
    k ∉ cols.map Prod.fst →
    cols.map (fun e => if e.1 = k then (k, v) else e) = cols := by
  intro cols
  induction cols with
  | nil => intro _; rfl
  | cons e rest ih =>
    intro h
    simp only [List.map_cons, List.mem_cons, not_or] at h
    rw [List.map_cons, if_neg (fun hc => h.1 hc.symm), ih h.2]

theorem objGet0_map_set {k k' : JStr} {v : Int} : ∀ {cols : List (JStr × Int)},
    k ∈ cols.map Prod.fst →
    objGet0 (cols.map (fun e => if e.1 = k then (k, v) else e)) k' =
      if k' = k then v else objGet0 cols k' := by
  intro cols
  induction cols with
  | nil => intro h; cases h
  | cons e rest ih =>
    intro h
    by_cases he : e.1 = k
    · rw [List.map_cons, if_pos he]
      by_cases hk : k' = k
      · simp only [objGet0]
        rw [if_pos hk.symm, if_pos hk]
      · simp only [objGet0]
        rw [if_neg (fun hc : k = k' => hk hc.symm),
          if_neg (fun hc : e.1 = k' => hk (he.symm.trans hc).symm)]
        by_cases hk2 : k ∈ rest.map Prod.fst
        · rw [ih hk2, if_neg hk]
        · rw [map_set_eq_self hk2, if_neg hk]
    · have hmem : k ∈ rest.map Prod.fst := by
        simp only [List.map_cons, List.mem_cons] at h
        rcases h with h | h
        · exact absurd h.symm he
        · exact h
      rw [List.map_cons, if_neg he]
      by_cases hk' : e.1 = k'
      · simp only [objGet0]
        rw [if_pos hk', if_neg (fun hc : k' = k => he (hk'.trans hc)), if_pos hk']
      · simp only [objGet0]
        rw [if_neg hk', if_neg hk', ih hmem]

theorem objGet0_append_single_ne {cols : List (JStr × Int)} {k k' : JStr}
    {v : Int} (h : ¬ k' = k) :
    objGet0 (cols ++ [(k, v)]) k' = objGet0 cols k' := by
  induction cols with
  | nil =>
    simp only [List.nil_append, objGet0]
    rw [if_neg (fun hc => h hc.symm)]
  | cons e rest ih =>
    simp only [List.cons_append, objGet0, List.append_eq]
    rw [ih]

theorem objGet0_objSet {cols : List (JStr × Int)} {k k' : JStr} {v : Int} :
    objGet0 (objSet cols k v) k' = if k' = k then v else objGet0 cols k' := by
  unfold objSet
  by_cases hp : (cols.find? (fun e => e.1 = k)).isSome = true
  · rw [if_pos hp, objGet0_map_set (mem_keys_of_find?_isSome hp)]
  · rw [if_neg hp]
    have habs : ∀ e ∈ cols, ¬ e.1 = k := by
      intro e he
      have := List.find?_eq_none.mp (Option.not_isSome_iff_eq_none.mp hp) e he
      simpa using this
    by_cases hk : k' = k
    · subst hk
      have : ∀ cols' : List (JStr × Int), (∀ e ∈ cols', ¬ e.1 = k') →
          objGet0 (cols' ++ [(k', v)]) k' = v := by
        intro cols'
        induction cols' with
        | nil => intro _; simp [objGet0]
        | cons e rest ih =>
          intro h
          simp only [List.cons_append, objGet0, List.append_eq]
          rw [if_neg (h e (by simp)), ih (fun x hx => h x (by simp [hx]))]
      rw [this cols habs, if_pos rfl]
    · rw [objGet0_append_single_ne hk, if_neg hk]

theorem objSet_keys {cols : List (JStr × Int)} {k : JStr} {v : Int} :
    (objSet cols k v).map Prod.fst =
      (if (cols.find? (fun e => e.1 = k)).isSome then cols.map Prod.fst
       else cols.map Prod.fst ++ [k]) := by
  unfold objSet
  by_cases hp : (cols.find? (fun e => e.1 = k)).isSome = true
  · rw [if_pos hp, if_pos hp, List.map_map, List.map_congr_left]
    intro e _
    by_cases he : e.1 = k
    · simp [he]
    · simp [he]
  · rw [if_neg hp, if_neg hp]
    simp

theorem stats_map_upd_eq_self {n : JStr} {ty : JStr} {v : Int} :
    ∀ {stats : List (JStr × List (JStr × Int))}, n ∉ stats.map Prod.fst →
    stats.map (fun e =>
      if e.1 = n then (e.1, objSet e.2 ty (objGet0 e.2 ty + v)) else e) = stats := by
  intro stats
  induction stats with
  | nil => intro _; rfl
  | cons e rest ih =>
    intro h
    simp only [List.map_cons, List.mem_cons, not_or] at h
    rw [List.map_cons, if_neg (fun hc => h.1 hc.symm), ih h.2]

theorem statsGet0_map_upd {n n' ty ty' : JStr} {v : Int} :
    ∀ {stats : List (JStr × List (JStr × Int))}, n ∈ stats.map Prod.fst →
    statsGet0 (stats.map (fun e =>
        if e.1 = n then (e.1, objSet e.2 ty (objGet0 e.2 ty + v)) else e)) n' ty' =
      (if n' = n then statsGet0 stats n ty' + (if ty' = ty then v else 0)
       else statsGet0 stats n' ty') := by
  intro stats
  induction stats with
  | nil => intro h; cases h
  | cons e rest ih =>
    intro h
    by_cases he : e.1 = n
    · rw [List.map_cons, if_pos he]
      by_cases hn : n' = n
      · rw [if_pos hn]
        simp only [statsGet0]
        rw [if_pos (he.trans hn.symm), if_pos he, objGet0_objSet]
        by_cases hty : ty' = ty
        · rw [if_pos hty, if_pos hty]
          rw [show objGet0 e.2 ty' = objGet0 e.2 ty from by rw [hty]]
        · rw [if_neg hty, if_neg hty]
          omega
      · rw [if_neg hn]
        simp only [statsGet0]
        rw [if_neg (fun hc : e.1 = n' => hn (he.symm.trans hc).symm),
          if_neg (fun hc : e.1 = n' => hn (he.symm.trans hc).symm)]
        by_cases hmem : n ∈ rest.map Prod.fst
        · rw [ih hmem, if_neg hn]
        · rw [stats_map_upd_eq_self hmem]
    · have hmem : n ∈ rest.map Prod.fst := by
        simp only [List.map_cons, List.mem_cons] at h
        rcases h with h | h
        · exact absurd h.symm he
        · exact h
      rw [List.map_cons, if_neg he]
      by_cases hk' : e.1 = n'
      · rw [if_neg (fun hc : n' = n => he (hk'.trans hc))]
        simp only [statsGet0]
        rw [if_pos hk', if_pos hk']
      · simp only [statsGet0]
        rw [if_neg hk', if_neg hk', if_neg he, ih hmem]

theorem statsGet0_append_one {stats : List (JStr × List (JStr × Int))}
    {n n' ty' : JStr} {cols : List (JStr × Int)}
    (habs : ∀ e ∈ stats, ¬ e.1 = n) :
    statsGet0 (stats ++ [(n, cols)]) n' ty' =
      (if n' = n then objGet0 cols ty' else statsGet0 stats n' ty') := by
  induction stats with
  | nil =>
    simp only [List.nil_append, statsGet0]
    by_cases hn : n' = n
    · rw [if_pos hn.symm, if_pos hn]
    · rw [if_neg (fun hc : n = n' => hn hc.symm), if_neg hn]
  | cons e rest ih =>
    simp only [List.cons_append, statsGet0, List.append_eq]
    by_cases hk : e.1 = n'
    · rw [if_pos hk, if_pos hk,
        if_neg (fun hc : n' = n => habs e (by simp) (hk.trans hc))]
    · rw [if_neg hk, if_neg hk, ih (fun x hx => habs x (by simp [hx]))]

theorem statsAdd_get0 {tl : List JStr}
    {stats : List (JStr × List (JStr × Int))} {n ty n' ty' : JStr} {v : Int} :
    statsGet0 (statsAdd tl stats n ty v) n' ty' =
      statsGet0 stats n' ty' + (if n' = n ∧ ty' = ty then v else 0) := by
  unfold statsAdd
  by_cases hp : (stats.find? (fun e => e.1 = n)).isSome = true
  · rw [if_pos hp]
    have hmem : n ∈ stats.map Prod.fst := by
      rcases List.find?_isSome.mp hp with ⟨e, he, hk⟩
      simp only [decide_eq_true_eq] at hk
      exact hk ▸ List.mem_map_of_mem _ he
    rw [statsGet0_map_upd hmem]
    by_cases hn : n' = n
    · rw [if_pos hn, hn]
      by_cases hty : ty' = ty
      · rw [if_pos hty, if_pos ⟨rfl, hty⟩]
      · rw [if_neg hty, if_neg (fun hc => hty hc.2)]
    · rw [if_neg hn, if_neg (fun hc => hn hc.1)]
      omega
  · rw [if_neg hp]
    have habs : ∀ e ∈ stats, ¬ e.1 = n := by
      intro e he
      have := List.find?_eq_none.mp (Option.not_isSome_iff_eq_none.mp hp) e he
      simpa using this
    have hmem : n ∈ (stats ++ [(n, initPersonRow tl)]).map Prod.fst := by simp
    rw [statsGet0_map_upd hmem]
    have hstats0 : ∀ ty'' : JStr, statsGet0 stats n ty'' = 0 := by
      intro ty''
      clear hmem hp
      induction stats with
      | nil => rfl
      | cons e rest ih =>
        simp only [statsGet0]
        rw [if_neg (habs e (by simp))]
        exact ih (fun x hx => habs x (by simp [hx]))
    by_cases hn : n' = n
    · rw [if_pos hn, statsGet0_append_one habs, if_pos rfl,
        objGet0_initPersonRow, hn, hstats0 ty']
      by_cases hty : ty' = ty
      · rw [if_pos hty, if_pos ⟨rfl, hty⟩]
      · rw [if_neg hty, if_neg (fun hc => hty hc.2)]
    · rw [if_neg hn, statsGet0_append_one habs, if_neg hn,
        if_neg (fun hc => hn hc.1)]
      omega

theorem statsAdd_keys {tl : List JStr}
    {stats : List (JStr × List (JStr × Int))} {n ty : JStr} {v : Int} :
    (statsAdd tl stats n ty v).map Prod.fst =
      (if (stats.find? (fun e => e.1 = n)).isSome then stats.map Prod.fst
       else stats.map Prod.fst ++ [n]) := by
  unfold statsAdd
  have hkeys : ∀ l : List (JStr × List (JStr × Int)),
      (l.map (fun e =>
        if e.1 = n then (e.1, objSet e.2 ty (objGet0 e.2 ty + v)) else e)).map
        Prod.fst = l.map Prod.fst := by
    intro l
    rw [List.map_map, List.map_congr_left]
    intro e _
    by_cases he : e.1 = n
    · simp [he]
    · simp [he]
  by_cases hp : (stats.find? (fun e => e.1 = n)).isSome = true
  · rw [if_pos hp, if_pos hp, hkeys]
  · rw [if_neg hp, if_neg hp, hkeys]
    simp

theorem statsAdd_cols_keys {tl : List JStr}
    {stats : List (JStr × List (JStr × Int))} {n ty : JStr} {v : Int}
    (hall : ∀ e ∈ stats, e.2.map Prod.fst = tl) (hty : ty ∈ tl) :
    ∀ e ∈ statsAdd tl stats n ty v, e.2.map Prod.fst = tl := by
  intro e' he'
  unfold statsAdd at he'
  have hstep : ∀ l : List (JStr × List (JStr × Int)),
      (∀ e ∈ l, e.2.map Prod.fst = tl) →
      e' ∈ l.map (fun e =>
        if e.1 = n then (e.1, objSet e.2 ty (objGet0 e.2 ty + v)) else e) →
      e'.2.map Prod.fst = tl := by
    intro l hl hmem
    rcases List.mem_map.mp hmem with ⟨e, he, heq⟩
    by_cases hc : e.1 = n
    · rw [if_pos hc] at heq
      rw [← heq]
      show (objSet e.2 ty (objGet0 e.2 ty + v)).map Prod.fst = tl
      rw [objSet_keys, if_pos (find?_isSome_of_mem_keys (by rw [hl e he]; exact hty))]
      exact hl e he
    · rw [if_neg hc] at heq
      rw [← heq]
      exact hl e he
  by_cases hp : (stats.find? (fun e => e.1 = n)).isSome = true
  · rw [if_pos hp] at he'
    exact hstep stats hall he'
  · rw [if_neg hp] at he'
    refine hstep _ ?_ he'
    intro e he
    rcases List.mem_append.mp he with h | h
    · exact hall e h
    · simp only [List.mem_singleton] at h
      rw [h]
      exact initPersonRow_keys

theorem statsGet0_entry {stats : List (JStr × List (JStr × Int))}
    {e : JStr × List (JStr × Int)} {ty : JStr}
    (hnd : (stats.map Prod.fst).Nodup) (he : e ∈ stats) :
    statsGet0 stats e.1 ty = objGet0 e.2 ty := by
  induction stats with
  | nil => cases he
  | cons x rest ih =>
    rcases List.mem_cons.mp he with h | h
    · rw [h]
      simp [statsGet0]
    · simp only [statsGet0]
      have hx : ¬ x.1 = e.1 := by
        simp only [List.map_cons, List.nodup_cons] at hnd
        intro hc
        exact hnd.1 (hc ▸ List.mem_map_of_mem _ h)
      rw [if_neg hx]
      exact ih (by
        simp only [List.map_cons, List.nodup_cons] at hnd
        exact hnd.2) h

theorem statsAdd_nodup {tl : List JStr}
    {stats : List (JStr × List (JStr × Int))} {n ty : JStr} {v : Int}
    (hnd : (stats.map Prod.fst).Nodup) :
    ((statsAdd tl stats n ty v).map Prod.fst).Nodup := by
  rw [statsAdd_keys]
  by_cases hp : (stats.find? (fun e => e.1 = n)).isSome = true
  · rw [if_pos hp]
    exact hnd
  · rw [if_neg hp]
    have hnmem : n ∉ stats.map Prod.fst := fun hmem => hp (find?_isSome_of_mem_keys hmem)
    simp only [List.nodup_append, List.nodup_cons, List.not_mem_nil,
      not_false_iff, List.nodup_nil, and_true, true_and]
    exact ⟨hnd, by
      intro a ha
      simp only [List.mem_singleton]
      intro hc
      exact hnmem (hc ▸ ha)⟩

theorem statsAdd_mem_keys {tl : List JStr}
    {stats : List (JStr × List (JStr × Int))} {n ty n' : JStr} {v : Int} :
    n' ∈ (statsAdd tl stats n ty v).map Prod.fst ↔
      n' ∈ stats.map Prod.fst ∨ n' = n := by
  rw [statsAdd_keys]
  by_cases hp : (stats.find? (fun e => e.1 = n)).isSome = true
  · rw [if_pos hp]
    constructor
    · exact Or.inl
    · rintro (h | h)
      · exact h
      · exact h ▸ mem_keys_of_find?_isSome hp
  · rw [if_neg hp]
    simp

theorem calculateParticipantHours_eq (map : AliasMap)
    (data : List ActivityRecord) :
    calculateParticipantHours map data =
      match data.foldlM (fun stats record =>
          record.participants.foldlM
            (phStep map
              (dedupKeys (data.map (fun r => orUnclassified r.activityType)))
              record) stats) [] with
      | none => none
      | some stats =>
        some ((stats.map (fun e => (⟨e.1, e.2⟩ : PersonRow))).mergeSort
          (fun a b => rowTotal b ≤ rowTotal a)) := rfl

theorem phFold_participants {map : AliasMap} {tl : List JStr}
    {record : ActivityRecord} :
    ∀ (pvs : List ParticipantVal)
      (stats stats' : List (JStr × List (JStr × Int))),
      pvs.foldlM (phStep map tl record) stats = some stats' →
      (∀ n ty, statsGet0 stats' n ty = statsGet0 stats n ty +
        (if orUnclassified record.activityType = ty then
          (pvs.map (fun pv => pvContribution map record pv n)).sum else 0)) ∧
      ((stats.map Prod.fst).Nodup → (stats'.map Prod.fst).Nodup) ∧
      (orUnclassified record.activityType ∈ tl →
        (∀ e ∈ stats, e.2.map Prod.fst = tl) →
        ∀ e ∈ stats', e.2.map Prod.fst = tl) := by
  intro pvs
  induction pvs with
  | nil =>
    intro stats stats' h
    simp only [List.foldlM_nil] at h
    cases h
    refine ⟨?_, fun hnd => hnd, fun _ hc => hc⟩
    intro n ty
    simp
  | cons pv rest ih =>
    intro stats stats' h
    rw [List.foldlM_cons] at h
    cases hp : parseNameWithDate (participantName pv) (some record.date) with
    | none =>
      have hstep : phStep map tl record stats pv = none := by
        unfold phStep
        simp only [hp]
      rw [hstep] at h
      simp at h
    | some parsed =>
      by_cases hname : parsed.name = []
      · have hstep : phStep map tl record stats pv = some stats := by
          unfold phStep
          simp only [hp]
          rw [if_pos hname]
        rw [hstep] at h
        have h' : rest.foldlM (phStep map tl record) stats = some stats' := h
        obtain ⟨hget, hnd, hcols⟩ := ih stats stats' h'
        refine ⟨?_, hnd, hcols⟩
        intro n ty
        have hpv : pvContribution map record pv n = 0 := by
          unfold pvContribution
          simp only [hp]
          rw [if_pos hname]
        rw [List.map_cons, List.sum_cons, hpv, zero_add]
        exact hget n ty
      · have hstep : phStep map tl record stats pv =
            some (statsAdd tl stats (normalizeName map parsed.name)
              (orUnclassified record.activityType)
              (participantHoursOf record pv parsed)) := by
          unfold phStep
          simp only [hp]
          rw [if_neg hname]
        rw [hstep] at h
        have h' : rest.foldlM (phStep map tl record)
            (statsAdd tl stats (normalizeName map parsed.name)
              (orUnclassified record.activityType)
              (participantHoursOf record pv parsed)) = some stats' := h
        obtain ⟨hget, hnd, hcols⟩ := ih _ stats' h'
        refine ⟨?_, ?_, ?_⟩
        · intro n ty
          have hpv : pvContribution map record pv n =
              if normalizeName map parsed.name = n then
                participantHoursOf record pv parsed else 0 := by
            unfold pvContribution
            simp only [hp]
            rw [if_neg hname]
          rw [List.map_cons, List.sum_cons, hpv]
          have hmid := hget n ty
          rw [statsAdd_get0] at hmid
          rw [hmid]
          by_cases h1 : orUnclassified record.activityType = ty
          · by_cases h2 : normalizeName map parsed.name = n
            · simp only [if_pos h1, if_pos h2,
                if_pos (show n = normalizeName map parsed.name ∧
                  ty = orUnclassified record.activityType from ⟨h2.symm, h1.symm⟩)]
              ring
            · simp only [if_pos h1, if_neg h2,
                if_neg (show ¬(n = normalizeName map parsed.name ∧
                  ty = orUnclassified record.activityType) from
                  fun hc => h2 hc.1.symm)]
              ring
          · simp only [if_neg h1,
              if_neg (show ¬(n = normalizeName map parsed.name ∧
                ty = orUnclassified record.activityType) from
                fun hc => h1 hc.2.symm)]
            ring
        · intro hnd0
          exact hnd (statsAdd_nodup hnd0)
        · intro hty hc0
          exact hcols hty (statsAdd_cols_keys hc0 hty)

theorem phFold_records {map : AliasMap} {tl : List JStr} :
    ∀ (data : List ActivityRecord)
      (stats stats' : List (JStr × List (JStr × Int))),
      (∀ r ∈ data, orUnclassified r.activityType ∈ tl) →
      data.foldlM (fun stats record =>
        record.participants.foldlM (phStep map tl record) stats) stats
        = some stats' →
      (∀ n ty, statsGet0 stats' n ty = statsGet0 stats n ty +
        (data.map (fun r => recordContribution map r n ty)).sum) ∧
      ((stats.map Prod.fst).Nodup → (stats'.map Prod.fst).Nodup) ∧
      ((∀ e ∈ stats, e.2.map Prod.fst = tl) →
        ∀ e ∈ stats', e.2.map Prod.fst = tl) := by
  intro data
  induction data with
  | nil =>
    intro stats stats' _ h
    simp only [List.foldlM_nil] at h
    cases h
    refine ⟨?_, fun hnd => hnd, fun hc => hc⟩
    intro n ty
    simp
  | cons r rest ih =>
    intro stats stats' hall h
    rw [List.foldlM_cons] at h
    cases hmid : r.participants.foldlM (phStep map tl r) stats with
    | none =>
      rw [hmid] at h
      simp at h
    | some mid =>
      rw [hmid] at h
      have h' : rest.foldlM (fun stats record =>
          record.participants.foldlM (phStep map tl record) stats) mid
          = some stats' := h
      have hrty : orUnclassified r.activityType ∈ tl :=
        hall r (List.mem_cons_self r rest)
      obtain ⟨iget, ind, icols⟩ := phFold_participants r.participants stats mid hmid
      obtain ⟨hget, hnd, hcols⟩ :=
        ih mid stats' (fun r' hr' => hall r' (List.mem_cons_of_mem r hr')) h'
      refine ⟨?_, fun hnd0 => hnd (ind hnd0), fun hc0 => hcols (icols hrty hc0)⟩
      intro n ty
      rw [List.map_cons, List.sum_cons]
      have hrc : recordContribution map r n ty =
          (if orUnclassified r.activityType = ty then
            (r.participants.map (fun pv => pvContribution map r pv n)).sum
          else 0) := rfl
      rw [hget n ty, iget n ty, hrc]
      ring

theorem calculateParticipantHours_rows {map : AliasMap}
    {data : List ActivityRecord} {rows : List PersonRow}
    (h : calculateParticipantHours map data = some rows) :
    ∃ statsF : List (JStr × List (JStr × Int)),
      (statsF.map Prod.fst).Nodup ∧
      (∀ e ∈ statsF, e.2.map Prod.fst =
        dedupKeys (data.map (fun r => orUnclassified r.activityType))) ∧
      (∀ n ty, statsGet0 statsF n ty =
        (data.map (fun r => recordContribution map r n ty)).sum) ∧
      rows = (statsF.map (fun e => (⟨e.1, e.2⟩ : PersonRow))).mergeSort
        (fun a b => rowTotal b ≤ rowTotal a) := by
  rw [calculateParticipantHours_eq] at h
  cases hF : data.foldlM (fun stats record =>
      record.participants.foldlM
        (phStep map
          (dedupKeys (data.map (fun r => orUnclassified r.activityType)))
          record) stats) [] with
  | none =>
    rw [hF] at h
    cases h
  | some statsF =>
    rw [hF] at h
    have h' : some ((statsF.map (fun e => (⟨e.1, e.2⟩ : PersonRow))).mergeSort
        (fun a b => rowTotal b ≤ rowTotal a)) = some rows := h
    obtain ⟨hget, hnd, hcols⟩ := phFold_records data [] statsF
      (fun r hr => mem_dedupKeys.mpr (List.mem_map.mpr ⟨r, hr, rfl⟩)) hF
    refine ⟨statsF, hnd (by simp), hcols (by simp), ?_, (Option.some.inj h').symm⟩
    intro n ty
    rw [hget n ty]
    have h0 : statsGet0 [] n ty = 0 := rfl
    rw [h0, zero_add]

/-- C8: for the person-by-activity-type hours pivot
`calculateParticipantHours`, output rows are sorted by the person's total
across all categories descending, and every person's cell for a category
equals the sum over the input records of `recordContribution`: a record
contributes only to its own category, and per resolved participant the
hours follow the preference order of `pvContribution` and
`participantHoursOf` — a positive date-prefix day count times 8, else a
positive name-suffix parsed day count times 8, else the record's own
`hours` field, the same for every such participant of the record. -/
theorem c8_participant_hours (map : AliasMap) (data : List ActivityRecord)
    (rows : List PersonRow)
    (h : calculateParticipantHours map data = some rows) :
    rows.Pairwise (fun a b => rowTotal b ≤ rowTotal a) ∧
    ∀ row ∈ rows, ∀ ty, objGet0 row.cols ty =
      (data.map (fun r => recordContribution map r row.name ty)).sum := by
  obtain ⟨statsF, hnd, hcols, hget, hrows⟩ := calculateParticipantHours_rows h
  constructor
  · rw [hrows]
    have hs := @List.sorted_mergeSort PersonRow
      (fun a b => decide (rowTotal b ≤ rowTotal a))
      (fun a b c hab hbc => by
        simp only [decide_eq_true_eq] at hab hbc ⊢
        exact le_trans hbc hab)
      (fun a b => by
        simp only [Bool.or_eq_true, decide_eq_true_eq]
        exact le_total _ _)
      (statsF.map (fun e => (⟨e.1, e.2⟩ : PersonRow)))
    exact hs.imp (by
      intro a b hab
      simpa using hab)
  · intro row hrow ty
    rw [hrows] at hrow
    rcases List.mem_map.mp ((List.mergeSort_perm _ _).mem_iff.mp hrow) with
      ⟨e, he, heq⟩
    have hc : row.cols = e.2 := by rw [← heq]
    have hn : row.name = e.1 := by rw [← heq]
    rw [hc, hn, ← statsGet0_entry hnd he, hget e.1 ty]

theorem c8_participant_hours_witness :
    calculateParticipantHours ([] : AliasMap)
        [⟨⟨2025, 11, 29⟩, [], [], 2, jstr "工作假期", [], 1, 5,
          [ParticipantVal.entry ⟨jstr "甲", some 2⟩], 2⟩] =
      some [⟨jstr "甲", [(jstr "工作假期", 16)]⟩] ∧
    (([(⟨jstr "甲", [(jstr "工作假期", 16)]⟩ : PersonRow)]).Pairwise
        (fun a b => rowTotal b ≤ rowTotal a) ∧
      ∀ row ∈ [(⟨jstr "甲", [(jstr "工作假期", 16)]⟩ : PersonRow)], ∀ ty,
        objGet0 row.cols ty =
          ([⟨⟨2025, 11, 29⟩, [], [], 2, jstr "工作假期", [], 1, 5,
            [ParticipantVal.entry ⟨jstr "甲", some 2⟩], 2⟩].map
            (fun r => recordContribution [] r row.name ty)).sum) :=
  ⟨by decide, c8_participant_hours [] _ _ (by decide)⟩

theorem map_fst_pairing {β : Type} (f : JStr → β) :
    ∀ l : List JStr, (l.map (fun c => (c, f c))).map Prod.fst = l := by
  intro l
  induction l with
  | nil => rfl
  | cons x xs ih => simp only [List.map_cons, ih]

theorem hourlog_row_keys {ctl : List JStr}
    {stats : List (JStr × List (JStr × Int))} {row : PersonRow}
    (hrow : row ∈ (stats.map (fun e =>
        (⟨e.1, ctl.map (fun c => (c, objGet0 e.2 c))⟩ : PersonRow))).mergeSort
      (fun a b => rowTotal b ≤ rowTotal a)) :
    row.cols.map Prod.fst = ctl := by
  rcases List.mem_map.mp ((List.mergeSort_perm _ _).mem_iff.mp hrow) with
    ⟨e, he, heq⟩
  rw [← heq]
  exact map_fst_pairing (fun c => objGet0 e.2 c) ctl

/-- C7 is false as stated: the month-by-activity-type pivot is not
rectangular.  With one January record of one category and one February
record of another, each month row carries only the column of its own
category, so the column-key sets differ across rows. -/
theorem c7_month_pivot_not_rectangular :
    ¬ RectangularRows (calculateMonthlyActivityTypeCount
      [⟨⟨2025, 1, 10⟩, [], [], 1, jstr "工作假期", [], 0, 0, [], 2⟩,
       ⟨⟨2025, 2, 10⟩, [], [], 1, jstr "例行維護", [], 0, 0, [], 3⟩]) := by
  decide

/-- C7 (amended): rectangularity holds for the person-level matrices — in
the hour-log person-by-content pivot every row's column-key list is exactly
the deduplicated vocabulary extended by the unclassified bucket, and in the
participant-hours person-by-activity-type pivot every row's column-key list
is exactly the deduplicated list of the input records' categories — but not
for the month pivots, whose rows acquire only the columns of categories
occurring in their own month. -/
theorem c7_rectangularity_amended :
    (∀ (vocab : List JStr) (processedData : List HourLogProcessed)
        (options : YearOptions),
      ∀ row ∈ (calculateVolunteerHoursByContentWithOptions vocab
          processedData options).1,
        row.cols.map Prod.fst = dedupKeys (vocab ++ [unclassified])) ∧
    (∀ (map : AliasMap) (data : List ActivityRecord) (rows : List PersonRow),
      calculateParticipantHours map data = some rows →
      ∀ row ∈ rows, row.cols.map Prod.fst =
        dedupKeys (data.map (fun r => orUnclassified r.activityType))) := by
  constructor
  · intro vocab processedData options row hrow
    have hrow' : row ∈ ((processedData.foldl (fun stats record =>
        if yearFilterKeep options (match record.raw.date with
          | some d => d.year
          | none => 0) then
          if record.standardName = [] || record.raw.hours ≤ 0 then stats
          else statsBump stats record.standardName
            (if record.matchedContentType = [] then unclassified
             else record.matchedContentType) record.raw.hours
        else stats) []).map (fun e =>
          (⟨e.1, (dedupKeys (vocab ++ [unclassified])).map
            (fun c => (c, objGet0 e.2 c))⟩ : PersonRow))).mergeSort
        (fun a b => rowTotal b ≤ rowTotal a) := hrow
    exact hourlog_row_keys hrow'
  · intro map data rows h row hrow
    obtain ⟨statsF, hnd, hcols, hget, hrows⟩ := calculateParticipantHours_rows h
    rw [hrows] at hrow
    rcases List.mem_map.mp ((List.mergeSort_perm _ _).mem_iff.mp hrow) with
      ⟨e, he, heq⟩
    have hc : row.cols = e.2 := by rw [← heq]
    rw [hc]
    exact hcols e he

theorem c7_rectangularity_amended_witness :
    ((⟨jstr "小明", [(jstr "研習", 3), (unclassified, 0)]⟩ : PersonRow).cols.map
        Prod.fst = dedupKeys ([jstr "研習"] ++ [unclassified])) ∧
    ((⟨jstr "甲", [(jstr "工作假期", 16)]⟩ : PersonRow).cols.map Prod.fst =
      dedupKeys ([(⟨⟨2025, 11, 29⟩, [], [], 2, jstr "工作假期", [], 1, 5,
        [ParticipantVal.entry ⟨jstr "甲", some 2⟩], 2⟩ : ActivityRecord)].map
        (fun r => orUnclassified r.activityType))) :=
  ⟨c7_rectangularity_amended.1 [jstr "研習"]
    [⟨⟨jstr "王小明", some ⟨2025, 3, 1⟩, JsVal.str (jstr "研習活動"), 3, 2⟩,
      jstr "小明", jstr "研習"⟩] ⟨none, none, none, none⟩
    ⟨jstr "小明", [(jstr "研習", 3), (unclassified, 0)]⟩ (by decide),
   c7_rectangularity_amended.2 []
    [⟨⟨2025, 11, 29⟩, [], [], 2, jstr "工作假期", [], 1, 5,
      [ParticipantVal.entry ⟨jstr "甲", some 2⟩], 2⟩]
    [⟨jstr "甲", [(jstr "工作假期", 16)]⟩] (by decide)
    ⟨jstr "甲", [(jstr "工作假期", 16)]⟩ (by decide)⟩

end ActivityStats
